import Mathlib

/-!
Verification development for the EnergiX adaptive power-optimized scheduler.

The definitions below are a shallow embedding of the Python sources:
`backend/algorithms.py`, `backend/energy_aware_scheduler.py`,
`backend/multicore_scheduler.py` and the validation layer of
`backend/app.py` / `backend/server.py`.

Embedding conventions:
* Python ints become `Int`; true division becomes exact `ℚ` division.
* Python's `round(x, 2)` / `round(x, 4)` on floats is embedded as exact
  decimal rounding on `ℚ` (`round2` / `round4`); no settled statement
  depends on the tie behaviour of binary floating point.
* Python's stable in-place `list.sort(key=...)` is embedded as
  `pySort`, a stable structural sort over the decidable lexicographic
  order on the key.
* The imperative `while` loops become fuel-indexed tail recursions; the
  fuel is chosen large enough that, whenever the Python loop exits by its
  own condition, the recursion exits by the same condition (this is proved
  where a claim needs it).  A Python loop that would spin forever (which
  can only happen on states unreachable from the entry points) simply
  exhausts its fuel.
* Gantt charts and timelines are accumulated in reverse (`rgantt`,
  `rtimeline`) so that the Python pattern `gantt[-1]` is head access; the
  final result reverses them.
-/

set_option linter.unusedVariables false

namespace EnergiX

/-- An input process descriptor: the Python dict
`{pid, arrival, burst, priority}` handed to the scheduling functions
(priority defaults to 0 via `p.get('priority', 0)`). -/
structure Proc where
  pid : Int
  arrival : Int
  burst : Int
  priority : Int := 0
deriving Repr, DecidableEq

/-- The mutable `Process` object of `algorithms.py` (the
`energy_aware_scheduler.py` variant additionally carries
`classification`, initialised to "short"; the field is unused by the
classical engines).  `start_time` uses the source's `-1` sentinel. -/
structure Process where
  pid : Int
  arrival : Int
  burst : Int
  remaining : Int
  priority : Int
  completion : Int := 0
  turnaround : Int := 0
  waiting : Int := 0
  start_time : Int := -1
  classification : String := "short"
deriving Repr, DecidableEq

/-- `Process.__init__`: `remaining` is initialised to `burst`. -/
def mkProcess (p : Proc) : Process :=
  { pid := p.pid
    arrival := p.arrival
    burst := p.burst
    remaining := p.burst, priority := p.priority }

/-- A gantt chart segment.  The Python dict key `end` is embedded as
`stop` (`end` is a keyword).  `core` is present only in multi-core
segments, `classification` only in EAH segments. -/
structure Seg where
  process : String
  start : Int
  stop : Int
  core : Option Nat := none
  classification : Option String := none
deriving Repr, DecidableEq

/-- A timeline event `{time, process, event}` (EAH adds
`classification`). -/
structure TLEvent where
  time : Int
  process : Int
  event : String
  classification : Option String := none
deriving Repr, DecidableEq

/-- Exact decimal rounding standing in for Python's `round(x, 2)`. -/
def round2 (q : ℚ) : ℚ := (round (q * 100) : ℤ) / 100

/-- Exact decimal rounding standing in for Python's `round(x, 4)`. -/
def round4 (q : ℚ) : ℚ := (round (q * 10000) : ℤ) / 10000

/-- The basic metrics dict of `calculate_metrics` (the EAH variant adds
`threshold` and the short/long task counts). -/
structure Metrics where
  avg_turnaround : ℚ
  avg_waiting : ℚ
  total_completion : Int
  threshold : Option ℚ := none
  short_tasks_count : Option Nat := none
  long_tasks_count : Option Nat := none
deriving Repr, DecidableEq

/-- A per-process entry of a result's `processes` list.  Fields that a
given engine's dict does not carry are `none` (e.g. only
`priority_scheduling` exports `priority`, only EAH exports
`classification`, only the multi-core scheduler exports `start_time`). -/
structure ProcOut where
  pid : Int
  arrival : Int
  burst : Int
  completion : Int
  turnaround : Int
  waiting : Int
  priority : Option Int := none
  classification : Option String := none
  start_time : Option Int := none
deriving Repr, DecidableEq

/-- A single-core engine result dict.  `quantum` is only present for
Round Robin, `classification_threshold` only for EAH. -/
structure SchedResult where
  algorithm : String
  timeline : List TLEvent
  gantt : List Seg
  context_switches : Nat
  processes : List ProcOut
  metrics : Metrics
  quantum : Option Int := none
  classification_threshold : Option ℚ := none
deriving Repr, DecidableEq

/-- `max(p.completion for p in processes) if processes else 0`. -/
def maxCompletion (l : List Process) : Int :=
  ((l.map (·.completion)).max?).getD 0

/-- `calculate_metrics` of `algorithms.py`. -/
def calculate_metrics (processes : List Process) : Metrics :=
  let total_tat := (processes.map (·.turnaround)).sum
  let total_wt := (processes.map (·.waiting)).sum
  let n := processes.length
  { avg_turnaround := if 0 < n then round2 ((total_tat : ℚ) / (n : ℚ)) else 0
    avg_waiting := if 0 < n then round2 ((total_wt : ℚ) / (n : ℚ)) else 0
    total_completion := maxCompletion processes }

/-- The f-string label `f'P{process.pid}'`. -/
def pidLabel (pid : Int) : String := "P" ++ toString pid

/-- Lexicographic order on an `Int` triple, the order underlying every
`key=lambda x: (a, b, c)` sort of the sources. -/
def lex3 (a b : Int × Int × Int) : Prop :=
  a.1 < b.1 ∨ (a.1 = b.1 ∧ (a.2.1 < b.2.1 ∨ (a.2.1 = b.2.1 ∧ a.2.2 ≤ b.2.2)))

instance (a b : Int × Int × Int) : Decidable (lex3 a b) := by
  unfold lex3; exact inferInstance

/-- Boolean comparator for a stable sort by an `Int`-triple key. -/
def key3le (k : Process → Int × Int × Int) (a b : Process) : Bool :=
  decide (lex3 (k a) (k b))

/-- `key=lambda x: (x.arrival, x.pid)` (FCFS initial sort, EAH long
queue). -/
def leArrPid : Process → Process → Bool :=
  key3le (fun p => (p.arrival, p.pid, 0))

/-- `key=lambda x: x.arrival` (initial arrival sort of the loop-based
engines; stability preserves the input order of equal arrivals). -/
def leArr (a b : Process) : Bool := decide (a.arrival ≤ b.arrival)

/-- `key=lambda x: (x.burst, x.arrival, x.pid)` (SJF / EAH short
queue). -/
def leBurstArrPid : Process → Process → Bool :=
  key3le (fun p => (p.burst, p.arrival, p.pid))

/-- `key=lambda x: (x.remaining, x.arrival, x.pid)` (SRTF). -/
def leRemArrPid : Process → Process → Bool :=
  key3le (fun p => (p.remaining, p.arrival, p.pid))

/-- `key=lambda x: (x.priority, x.arrival, x.pid)` (priority
scheduling). -/
def lePrioArrPid : Process → Process → Bool :=
  key3le (fun p => (p.priority, p.arrival, p.pid))

/-- Python's stable in-place `list.sort(key=...)`, embedded as insertion
sort over the boolean comparator.  For a total preorder both mergesort
and insertion sort compute the unique stable sort, so this is
observationally the sort CPython performs. -/
def pySort {α : Type} (le : α → α → Bool) (l : List α) : List α :=
  List.insertionSort (fun a b => le a b = true) l

theorem pySort_perm {α : Type} (le : α → α → Bool) (l : List α) :
    (pySort le l).Perm l :=
  List.perm_insertionSort _ l

theorem mem_pySort {α : Type} {le : α → α → Bool} {a : α} {l : List α} :
    a ∈ pySort le l ↔ a ∈ l :=
  (pySort_perm le l).mem_iff

theorem pySort_sorted {α : Type} (le : α → α → Bool)
    (htrans : ∀ a b c, le a b = true → le b c = true → le a c = true)
    (htotal : ∀ a b, (le a b || le b a) = true) (l : List α) :
    List.Pairwise (fun a b => le a b = true) (pySort le l) := by
  letI : IsTotal α (fun a b => le a b = true) := ⟨by
    intro a b
    have := htotal a b
    rcases Bool.or_eq_true_iff.mp this with h | h
    · exact Or.inl h
    · exact Or.inr h⟩
  letI : IsTrans α (fun a b => le a b = true) := ⟨fun a b c => htrans a b c⟩
  exact List.sorted_insertionSort _ l

/-- `if gantt and gantt[-1]['process'] == 'IDLE': gantt[-1]['end'] = t1
else: gantt.append({'process': 'IDLE', ...})`, on the reversed gantt. -/
def pushIdleR (g : List Seg) (t next : Int) : List Seg :=
  match g with
  | s :: rest =>
    if s.process = "IDLE" then { s with stop := next } :: rest
    else ⟨"IDLE", t, next, none, none⟩ :: g
  | [] => [⟨"IDLE", t, next, none, none⟩]

/-- The preemptive engines' merge-append: extend the last segment when it
belongs to the same process, else append a fresh one (reversed gantt). -/
def pushSegR (g : List Seg) (label : String) (t next : Int) : List Seg :=
  match g with
  | s :: rest =>
    if s.process = label then { s with stop := next } :: rest
    else ⟨label, t, next, none, none⟩ :: g
  | [] => [⟨label, t, next, none, none⟩]

/-- `if last_process and last_process != process.pid` — note Python
truthiness: a `last_process` equal to pid `0` is falsy, so no switch is
counted after a process with pid 0. -/
def csBump : Option Int → Int → Bool
  | none, _ => false
  | some q, pid => q != 0 && q != pid

/-- The common execute-to-completion block of the non-preemptive engines:
set `start_time`, `completion`, `turnaround`, `waiting`. -/
def runProc (p : Process) (t : Int) : Process :=
  { p with
    start_time := t
    completion := t + p.burst
    turnaround := t + p.burst - p.arrival
    waiting := (t + p.burst - p.arrival) - p.burst }

/-- Shared simulation state of the loop-based single-core engines.
`pending` is `remaining_processes`, `rgantt`/`rtimeline` are the reversed
accumulators, `last` is `last_process`. -/
structure SimState where
  time : Int := 0
  ready : List Process := []
  pending : List Process
  completed : List Process := []
  rgantt : List Seg := []
  rtimeline : List TLEvent := []
  cs : Nat := 0
  last : Option Int := none
deriving Repr, DecidableEq

/-- `while remaining_processes and remaining_processes[0].arrival <=
current_time: ready_queue.append(remaining_processes.pop(0))`. -/
def absorb (s : SimState) : SimState :=
  { s with
    ready := s.ready ++ s.pending.takeWhile (fun p => decide (p.arrival ≤ s.time))
    pending := s.pending.dropWhile (fun p => decide (p.arrival ≤ s.time)) }

/-- The basic per-process result dict (`pid, arrival, burst, completion,
turnaround, waiting`). -/
def procOutBasic (p : Process) : ProcOut :=
  { pid := p.pid
    arrival := p.arrival
    burst := p.burst
    completion := p.completion, turnaround := p.turnaround
    waiting := p.waiting }

/-- The priority engines' per-process result dict (adds `priority`). -/
def procOutPrio (p : Process) : ProcOut :=
  { procOutBasic p with priority := some p.priority }

/-- The EAH per-process result dict (adds `classification`). -/
def procOutEah (p : Process) : ProcOut :=
  { procOutBasic p with classification := some p.classification }

/-! ## FCFS (`algorithms.fcfs`) -/

/-- The body of the FCFS `for` loop; `first` tracks `i == 0` for the
context-switch count, `acc` collects the executed processes in reverse. -/
def fcfsGo (t : Int) (rg : List Seg) (rtl : List TLEvent) (cs : Nat)
    (first : Bool) (acc : List Process) :
    List Process → Int × List Seg × List TLEvent × Nat × List Process
  | [] => (t, rg, rtl, cs, acc)
  | p :: rest =>
    let t1 := if t < p.arrival then p.arrival else t
    let rg1 := if t < p.arrival then pushIdleR rg t p.arrival else rg
    let q := runProc p t1
    let rg2 := Seg.mk (pidLabel q.pid) t1 q.completion none none :: rg1
    let rtl2 := TLEvent.mk q.completion q.pid "completion" none :: rtl
    let cs2 := if first then cs else cs + 1
    fcfsGo q.completion rg2 rtl2 cs2 false (q :: acc) rest

/-- `algorithms.fcfs`. -/
def fcfs (input : List Proc) : SchedResult :=
  let ps := pySort leArrPid (input.map mkProcess)
  let r := fcfsGo 0 [] [] 0 true [] ps
  let completed := r.2.2.2.2.reverse
  { algorithm := "FCFS"
    timeline := r.2.2.1.reverse
    gantt := r.2.1.reverse
    context_switches := r.2.2.2.1
    processes := completed.map procOutBasic
    metrics := calculate_metrics completed }

/-! ## SJF non-preemptive (`algorithms.sjf_non_preemptive`) -/

/-- One iteration of the `sjf_non_preemptive` while loop. -/
def sjfNpStep (s : SimState) : SimState :=
  let s1 := absorb s
  match s1.ready with
  | [] =>
    match s1.pending with
    | [] => s1
    | q :: _ =>
      { s1 with time := q.arrival, rgantt := pushIdleR s1.rgantt s1.time q.arrival }
  | _ :: _ =>
    match pySort leBurstArrPid s1.ready with
    | [] => s1
    | p :: rest =>
      let q := runProc p s1.time
      { s1 with
        time := q.completion
        ready := rest
        completed := s1.completed ++ [q]
        rgantt := Seg.mk (pidLabel q.pid) s1.time q.completion none none :: s1.rgantt
        rtimeline := TLEvent.mk q.completion q.pid "completion" none :: s1.rtimeline
        cs := if 1 < s1.completed.length + 1 then s1.cs + 1 else s1.cs }

/-- `while len(completed) < len(processes)` with fuel. -/
def sjfNpGo (total : Nat) : Nat → SimState → SimState
  | 0, s => s
  | fuel + 1, s =>
    if total ≤ s.completed.length then s
    else sjfNpGo total fuel (sjfNpStep s)

/-- `algorithms.sjf_non_preemptive`.  The fuel `2*n + 2` strictly exceeds
the number of iterations the Python loop can perform before its own
condition exits (proved below for the coverage claim). -/
def sjf_non_preemptive (input : List Proc) : SchedResult :=
  let ps := input.map mkProcess
  let s := sjfNpGo ps.length (2 * ps.length + 2) { pending := pySort leArr ps }
  { algorithm := "SJF Non-Preemptive"
    timeline := s.rtimeline.reverse
    gantt := s.rgantt.reverse
    context_switches := s.cs
    processes := s.completed.map procOutBasic
    metrics := calculate_metrics s.completed }

/-! ## SRTF (`algorithms.sjf_preemptive`) -/

/-- One iteration of the `sjf_preemptive` while loop (1-unit execution,
merge-append gantt, removal from the ready queue on completion). -/
def srtfStep (s : SimState) : SimState :=
  let s1 := absorb s
  match s1.ready with
  | [] =>
    match s1.pending with
    | [] => s1
    | q :: _ =>
      { s1 with time := q.arrival, rgantt := pushIdleR s1.rgantt s1.time q.arrival }
  | _ :: _ =>
    match pySort leRemArrPid s1.ready with
    | [] => s1
    | p :: rest =>
      let p1 := if p.start_time = -1 then { p with start_time := s1.time } else p
      let cs1 := if csBump s1.last p1.pid then s1.cs + 1 else s1.cs
      let p2 := { p1 with remaining := p1.remaining - 1 }
      let t1 := s1.time + 1
      let g1 := pushSegR s1.rgantt (pidLabel p2.pid) s1.time t1
      if p2.remaining = 0 then
        { s1 with
          time := t1
          ready := rest
          completed := s1.completed ++ [{ p2 with
            completion := t1
            turnaround := t1 - p2.arrival
            waiting := t1 - p2.arrival - p2.burst }]
          rgantt := g1
          rtimeline := TLEvent.mk t1 p2.pid "completion" none :: s1.rtimeline
          cs := cs1, last := some p2.pid }
      else
        { s1 with
          time := t1
          ready := p2 :: rest
          rgantt := g1
          cs := cs1, last := some p2.pid }

/-- `while len(completed) < len(processes) and current_time < max_time`
with fuel. -/
def srtfGo (total : Nat) (maxTime : Int) : Nat → SimState → SimState
  | 0, s => s
  | fuel + 1, s =>
    if total ≤ s.completed.length ∨ maxTime ≤ s.time then s
    else srtfGo total maxTime fuel (srtfStep s)

/-- `max(p.arrival + p.burst for p in processes)`; the `getD 0` default is
never used by a caller (Python raises on an empty generator, which the
HTTP layer surfaces as a 500 error). -/
def maxArrivalBurst (ps : List Process) : Int :=
  ((ps.map (fun p => p.arrival + p.burst)).max?).getD 0

/-- `algorithms.sjf_preemptive` (SRTF).  `max_time = max(arrival+burst) +
100`; the fuel dominates the iteration count of the bounded Python
loop. -/
def sjf_preemptive (input : List Proc) : SchedResult :=
  let ps := input.map mkProcess
  let maxTime := maxArrivalBurst ps + 100
  let fuel := 2 * (maxTime.toNat + ps.length) + 4
  let s := srtfGo ps.length maxTime fuel { pending := pySort leArr ps }
  { algorithm := "SJF Preemptive (SRTF)"
    timeline := s.rtimeline.reverse
    gantt := s.rgantt.reverse
    context_switches := s.cs
    processes := s.completed.map procOutBasic
    metrics := calculate_metrics s.completed }

/-! ## Round Robin (`algorithms.round_robin`) -/

/-- One iteration of the `round_robin` while loop: FIFO pop, execute
`min(quantum, remaining)`, then enqueue the processes that arrived up to
the end of the slice *before* re-queuing the preempted process. -/
def rrStep (quantum : Int) (s : SimState) : SimState :=
  let s1 := absorb s
  match s1.ready with
  | [] =>
    match s1.pending with
    | [] => s1
    | q :: _ =>
      { s1 with time := q.arrival, rgantt := pushIdleR s1.rgantt s1.time q.arrival }
  | p :: rest =>
    let p1 := if p.start_time = -1 then { p with start_time := s1.time } else p
    let cs1 := if csBump s1.last p1.pid then s1.cs + 1 else s1.cs
    let ex := min quantum p1.remaining
    let t1 := s1.time + ex
    let p2 := { p1 with remaining := p1.remaining - ex }
    let g1 := Seg.mk (pidLabel p2.pid) s1.time t1 none none :: s1.rgantt
    let arr := s1.pending.takeWhile (fun q => decide (q.arrival ≤ t1))
    let pend := s1.pending.dropWhile (fun q => decide (q.arrival ≤ t1))
    if p2.remaining = 0 then
      { time := t1
        ready := rest ++ arr
        pending := pend
        completed := s1.completed ++ [{ p2 with
          completion := t1
          turnaround := t1 - p2.arrival
          waiting := t1 - p2.arrival - p2.burst }]
        rgantt := g1
        rtimeline := TLEvent.mk t1 p2.pid "completion" none :: s1.rtimeline
        cs := cs1, last := some p2.pid }
    else
      { time := t1
        ready := (rest ++ arr) ++ [p2]
        pending := pend
        completed := s1.completed, rgantt := g1
        rtimeline := s1.rtimeline, cs := cs1, last := some p2.pid }

/-- Round Robin loop with fuel. -/
def rrGo (quantum : Int) (total : Nat) (maxTime : Int) : Nat → SimState → SimState
  | 0, s => s
  | fuel + 1, s =>
    if total ≤ s.completed.length ∨ maxTime ≤ s.time then s
    else rrGo quantum total maxTime fuel (rrStep quantum s)

/-- `algorithms.round_robin`.  `max_time = max(arrival+burst) * 10`. -/
def round_robin (input : List Proc) (quantum : Int) : SchedResult :=
  let ps := input.map mkProcess
  let maxTime := maxArrivalBurst ps * 10
  let fuel := 2 * (maxTime.toNat + ps.length) + 4
  let s := rrGo quantum ps.length maxTime fuel { pending := pySort leArr ps }
  { algorithm := "Round Robin (Quantum=" ++ toString quantum ++ ")"
    timeline := s.rtimeline.reverse
    gantt := s.rgantt.reverse
    context_switches := s.cs
    quantum := some quantum
    processes := s.completed.map procOutBasic
    metrics := calculate_metrics s.completed }

/-! ## Priority scheduling (`algorithms.priority_scheduling`) -/

/-- One iteration of the non-preemptive priority loop (select by
`(priority, arrival, pid)`, run to completion, `last_process`-based
context switch counting). -/
def prioNpStep (s : SimState) : SimState :=
  let s1 := absorb s
  match s1.ready with
  | [] =>
    match s1.pending with
    | [] => s1
    | q :: _ =>
      { s1 with time := q.arrival, rgantt := pushIdleR s1.rgantt s1.time q.arrival }
  | _ :: _ =>
    match pySort lePrioArrPid s1.ready with
    | [] => s1
    | p :: rest =>
      let cs1 := if csBump s1.last p.pid then s1.cs + 1 else s1.cs
      let q := runProc p s1.time
      { s1 with
        time := q.completion
        ready := rest
        completed := s1.completed ++ [q]
        rgantt := Seg.mk (pidLabel q.pid) s1.time q.completion none none :: s1.rgantt
        rtimeline := TLEvent.mk q.completion q.pid "completion" none :: s1.rtimeline
        cs := cs1, last := some q.pid }

/-- One iteration of the preemptive priority loop (1-unit execution by
`(priority, arrival, pid)` order). -/
def prioPStep (s : SimState) : SimState :=
  let s1 := absorb s
  match s1.ready with
  | [] =>
    match s1.pending with
    | [] => s1
    | q :: _ =>
      { s1 with time := q.arrival, rgantt := pushIdleR s1.rgantt s1.time q.arrival }
  | _ :: _ =>
    match pySort lePrioArrPid s1.ready with
    | [] => s1
    | p :: rest =>
      let p1 := if p.start_time = -1 then { p with start_time := s1.time } else p
      let cs1 := if csBump s1.last p1.pid then s1.cs + 1 else s1.cs
      let p2 := { p1 with remaining := p1.remaining - 1 }
      let t1 := s1.time + 1
      let g1 := pushSegR s1.rgantt (pidLabel p2.pid) s1.time t1
      if p2.remaining = 0 then
        { s1 with
          time := t1
          ready := rest
          completed := s1.completed ++ [{ p2 with
            completion := t1
            turnaround := t1 - p2.arrival
            waiting := t1 - p2.arrival - p2.burst }]
          rgantt := g1
          rtimeline := TLEvent.mk t1 p2.pid "completion" none :: s1.rtimeline
          cs := cs1, last := some p2.pid }
      else
        { s1 with
          time := t1
          ready := p2 :: rest
          rgantt := g1
          cs := cs1, last := some p2.pid }

/-- Non-preemptive priority loop with fuel (the Python loop also carries
the `current_time < max_time` bound). -/
def prioNpGo (total : Nat) (maxTime : Int) : Nat → SimState → SimState
  | 0, s => s
  | fuel + 1, s =>
    if total ≤ s.completed.length ∨ maxTime ≤ s.time then s
    else prioNpGo total maxTime fuel (prioNpStep s)

/-- Preemptive priority loop with fuel. -/
def prioPGo (total : Nat) (maxTime : Int) : Nat → SimState → SimState
  | 0, s => s
  | fuel + 1, s =>
    if total ≤ s.completed.length ∨ maxTime ≤ s.time then s
    else prioPGo total maxTime fuel (prioPStep s)

/-- `algorithms.priority_scheduling`; `max_time = max(arrival+burst) +
100` for both branches. -/
def priority_scheduling (input : List Proc) (preemptive : Bool) : SchedResult :=
  let ps := input.map mkProcess
  let maxTime := maxArrivalBurst ps + 100
  let fuel := 2 * (maxTime.toNat + ps.length) + 4
  let init : SimState := { pending := pySort leArr ps }
  let s := if preemptive then prioPGo ps.length maxTime fuel init
           else prioNpGo ps.length maxTime fuel init
  { algorithm := "Priority Scheduling (" ++
      (if preemptive then "Preemptive" else "Non-Preemptive") ++ ")"
    timeline := s.rtimeline.reverse
    gantt := s.rgantt.reverse
    context_switches := s.cs
    processes := s.completed.map procOutPrio
    metrics := calculate_metrics s.completed }

/-! ## Advanced metrics (`algorithms.calculate_advanced_metrics`) -/

/-- The advanced metrics dict. -/
structure AdvMetrics where
  cpu_utilization : ℚ
  throughput : ℚ
  avg_response_time : ℚ
  fairness_index : ℚ
deriving Repr, DecidableEq

/-- `g.get('pid')`: gantt segments carry no `pid` key (their process label
lives under the `process` key), so this lookup always yields `None`. -/
def segPidKey (g : Seg) : Option Int := none

/-- `algorithms.calculate_advanced_metrics`. -/
def calculate_advanced_metrics (result : SchedResult) (processes_input : List Proc) :
    AdvMetrics :=
  let gantt := result.gantt
  let processes := result.processes
  let completion_time := result.metrics.total_completion
  if processes = [] ∨ completion_time = 0 then
    { cpu_utilization := 0, throughput := 0, avg_response_time := 0, fairness_index := 0 }
  else
    let total_burst := (processes_input.map (·.burst)).sum
    let cpu_utilization :=
      if 0 < completion_time then round2 ((total_burst : ℚ) / (completion_time : ℚ) * 100) else 0
    let throughput :=
      if 0 < completion_time then round4 ((processes.length : ℚ) / (completion_time : ℚ)) else 0
    let response_times := processes.map (fun p =>
      let first_exec := ((gantt.find? (fun g => segPidKey g = some p.pid)).map (·.start)).getD p.arrival
      first_exec - p.arrival)
    let avg_response_time :=
      if response_times ≠ [] then
        round2 ((response_times.sum : ℚ) / (response_times.length : ℚ))
      else 0
    let ts := processes.map (·.turnaround)
    let sum_tat := ts.sum
    let sum_tat_sq := (ts.map (fun t => t * t)).sum
    let n := ts.length
    let fairness_index :=
      if 0 < sum_tat_sq then round4 ((sum_tat ^ 2 : ℚ) / ((n : ℚ) * (sum_tat_sq : ℚ))) else 1
    { cpu_utilization := cpu_utilization
      throughput := throughput
      avg_response_time := avg_response_time
      fairness_index := fairness_index }

/-! ## Energy-Aware Hybrid (`energy_aware_scheduler.energy_aware_hybrid`) -/

/-- The classification rule of `classify_tasks`:
`"short" if p.burst <= threshold else "long"`. -/
def classifyStr (threshold : ℚ) (burst : Int) : String :=
  if (burst : ℚ) ≤ threshold then "short" else "long"

/-- `classify_tasks` with an already-resolved threshold (the caller
resolves the `None` default before this point). -/
def classify_tasks (threshold : ℚ) (ps : List Process) : List Process :=
  ps.map (fun p => { p with classification := classifyStr threshold p.burst })

/-- The threshold default: the arithmetic mean burst,
`sum(bursts) / len(bursts)`, when the caller supplies `None`. -/
def eahThreshold (ps : List Process) : Option ℚ → ℚ
  | some t => t
  | none => ((ps.map (·.burst)).sum : ℚ) / (ps.length : ℚ)

/-- Simulation state of the EAH loop: two ready queues. -/
structure EahState where
  time : Int := 0
  shortQ : List Process := []
  longQ : List Process := []
  pending : List Process
  completed : List Process := []
  rgantt : List Seg := []
  rtimeline : List TLEvent := []
  cs : Nat := 0
  last : Option Int := none
deriving Repr, DecidableEq

/-- EAH arrival handling: route each arrived process to the short or long
queue according to its (pre-computed) classification. -/
def eahAbsorb (s : EahState) : EahState :=
  let arr := s.pending.takeWhile (fun p => decide (p.arrival ≤ s.time))
  { s with
    pending := s.pending.dropWhile (fun p => decide (p.arrival ≤ s.time))
    shortQ := s.shortQ ++ arr.filter (fun p => p.classification = "short")
    longQ := s.longQ ++ arr.filter (fun p => ¬ p.classification = "short") }

/-- EAH selection: SJF over the short queue when it is non-empty,
otherwise FCFS over the long queue; returns the selected process and the
two queues after the `pop(0)`. -/
def eahSelect (s : EahState) : Option (Process × List Process × List Process) :=
  match pySort leBurstArrPid s.shortQ with
  | p :: rest => some (p, rest, s.longQ)
  | [] =>
    match pySort leArrPid s.longQ with
    | p :: rest => some (p, s.shortQ, rest)
    | [] => none

/-- One iteration of the `energy_aware_hybrid` while loop. -/
def eahStep (s : EahState) : EahState :=
  let s1 := eahAbsorb s
  match eahSelect s1 with
  | none =>
    match s1.pending with
    | [] => s1
    | q :: _ =>
      { s1 with time := q.arrival, rgantt := pushIdleR s1.rgantt s1.time q.arrival }
  | some (p, sq, lq) =>
    let cs1 := if csBump s1.last p.pid then s1.cs + 1 else s1.cs
    let q := runProc p s1.time
    { s1 with
      time := q.completion
      shortQ := sq
      longQ := lq
      completed := s1.completed ++ [q]
      rgantt := Seg.mk (pidLabel q.pid) s1.time q.completion none (some q.classification)
        :: s1.rgantt
      rtimeline := TLEvent.mk q.completion q.pid "completion" (some q.classification)
        :: s1.rtimeline
      cs := cs1
      last := some q.pid }

/-- EAH loop with fuel (`max_time = max(arrival+burst) + 100`). -/
def eahGo (total : Nat) (maxTime : Int) : Nat → EahState → EahState
  | 0, s => s
  | fuel + 1, s =>
    if total ≤ s.completed.length ∨ maxTime ≤ s.time then s
    else eahGo total maxTime fuel (eahStep s)

/-- `energy_aware_scheduler.energy_aware_hybrid`. -/
def energy_aware_hybrid (input : List Proc) (threshold? : Option ℚ) : SchedResult :=
  let ps0 := input.map mkProcess
  let threshold := eahThreshold ps0 threshold?
  let ps := classify_tasks threshold ps0
  let maxTime := maxArrivalBurst ps + 100
  let fuel := 2 * (maxTime.toNat + ps.length) + 4
  let s := eahGo ps.length maxTime fuel { pending := pySort leArr ps }
  let short_tasks := s.completed.filter (fun p => p.classification = "short")
  let long_tasks := s.completed.filter (fun p => ¬ p.classification = "short")
  { algorithm := "Energy-Aware Hybrid (EAH)"
    timeline := s.rtimeline.reverse
    gantt := s.rgantt.reverse
    context_switches := s.cs
    classification_threshold := some (round2 threshold)
    processes := s.completed.map procOutEah
    metrics := { calculate_metrics s.completed with
      threshold := some (round2 threshold)
      short_tasks_count := some short_tasks.length
      long_tasks_count := some long_tasks.length } }

/-! ## DVFS energy estimator
(`energy_aware_scheduler.calculate_dvfs_energy`)

The power constants are embedded as exact rationals
(`POWER_HIGH = 5.0`, `POWER_MED = 3.0*0.7 = 21/10`,
`POWER_LOW = 1.5*0.4 = 3/5`, `POWER_IDLE = 1/5`,
`CONTEXT_SWITCH_PENALTY = 1/2`); the source's final `round(x, 2)` on the
four energy sums is the identity on these values (they are integer
multiples of `1/10`) and is omitted, while the timeline entries keep
their per-entry rounding. -/

/-- `max(segment['end'] for segment in gantt)` (callers guard against the
empty gantt; the default is never used). -/
def ganttMaxTime (gantt : List Seg) : Int :=
  ((gantt.map (·.stop)).max?).getD 0

/-- `is_busy`: some non-IDLE segment covers unit `t`. -/
def isBusyUnit (gantt : List Seg) (t : Nat) : Bool :=
  gantt.any (fun seg =>
    decide (seg.start ≤ (t : Int)) && decide ((t : Int) < seg.stop) &&
      seg.process != "IDLE")

/-- The sliding-window utilization at unit `t`: mean of the busy history
over the last `min(3, t+1)` units ending at `t` (`WINDOW_SIZE = 3`). -/
def windowUtil (gantt : List Seg) (t : Nat) : ℚ :=
  let w := min 3 (t + 1)
  let busyCount := ((List.range' (t + 1 - w) w).filter (fun u => isBusyUnit gantt u)).length
  (busyCount : ℚ) / (w : ℚ)

/-- The target power state from the utilization thresholds:
`> 0.6 → HIGH`, `< 0.2 → LOW`, else `MED`.  (On the reachable utilization
values `k/1, k/2, k/3` the comparisons with the binary floats `0.6`,
`0.2` and with the exact `3/5`, `1/5` agree.) -/
def targetState (gantt : List Seg) (t : Nat) : String :=
  if 3 / 5 < windowUtil gantt t then "HIGH"
  else if windowUtil gantt t < 1 / 5 then "LOW"
  else "MED"

/-- The hysteresis update (`HYSTERESIS = 1`):
`if state_duration >= HYSTERESIS or current_state == target_state:
current_state = target_state; state_duration = 0
else: state_duration += 1`. -/
def hystStep (cur : String) (dur : Nat) (target : String) : String × Nat :=
  if 1 ≤ dur ∨ cur = target then (target, 0) else (cur, dur + 1)

/-- The hysteresis machine state before processing unit `t`
(`current_state`, `state_duration`), starting from `('MED', 0)`. -/
def dvfsMachine (gantt : List Seg) : Nat → String × Nat
  | 0 => ("MED", 0)
  | t + 1 =>
    let st := dvfsMachine gantt t
    hystStep st.1 st.2 (targetState gantt t)

/-- The committed state used for unit `t` (the machine state after the
unit's hysteresis update). -/
def dvfsCommitted (gantt : List Seg) (t : Nat) : String :=
  (dvfsMachine gantt (t + 1)).1

/-- `current_segment`: the first segment covering unit `t`. -/
def currentSeg (gantt : List Seg) (t : Nat) : Option Seg :=
  gantt.find? (fun seg => decide (seg.start ≤ (t : Int)) && decide ((t : Int) < seg.stop))

/-- Whether unit `t` is charged as busy:
`current_segment and current_segment['process'] != 'IDLE'`. -/
def unitBusySeg (gantt : List Seg) (t : Nat) : Bool :=
  match currentSeg gantt t with
  | some seg => seg.process != "IDLE"
  | none => false

/-- Power of a committed HIGH/MED/LOW state. -/
def statePower (st : String) : ℚ :=
  if st = "HIGH" then 5 else if st = "MED" then 21 / 10 else 3 / 5

/-- Frequency of a committed HIGH/MED/LOW state. -/
def stateFreq (st : String) : ℚ :=
  if st = "HIGH" then 1 else if st = "MED" then 7 / 10 else 2 / 5

/-- The power charged for unit `t`: the committed state's power when the
unit is busy, `POWER_IDLE = 1/5` otherwise. -/
def unitPower (gantt : List Seg) (t : Nat) : ℚ :=
  if unitBusySeg gantt t then statePower (dvfsCommitted gantt t) else 1 / 5

/-- A `power_timeline` entry. -/
structure PowerEntry where
  time : Nat
  power : ℚ
  state : String
  utilization : ℚ
deriving Repr, DecidableEq

/-- A `frequency_timeline` entry. -/
structure FreqEntry where
  time : Nat
  frequency : ℚ
  state : String
deriving Repr, DecidableEq

/-- The `EnergyResult` dict.  The empty-gantt early return of the source
omits the `avg_power` key, embedded as `none`. -/
structure EnergyResult where
  total_energy : ℚ
  busy_energy : ℚ
  idle_energy : ℚ
  context_switch_energy : ℚ
  power_timeline : List PowerEntry
  frequency_timeline : List FreqEntry
  avg_power : Option ℚ := none
deriving Repr, DecidableEq

/-- `energy_aware_scheduler.calculate_dvfs_energy`. -/
def calculate_dvfs_energy (gantt : List Seg) (context_switches : Int) : EnergyResult :=
  if gantt = [] then
    { total_energy := 0, busy_energy := 0, idle_energy := 0
      context_switch_energy := 0, power_timeline := [], frequency_timeline := [] }
  else
    let maxT := (ganttMaxTime gantt).toNat
    let units := List.range maxT
    let busy_energy :=
      ((units.filter (fun t => unitBusySeg gantt t)).map
        (fun t => statePower (dvfsCommitted gantt t))).sum
    let idle_energy :=
      ((units.filter (fun t => ¬ unitBusySeg gantt t)).map (fun _ => (1 / 5 : ℚ))).sum
    let context_switch_energy := (context_switches : ℚ) * (1 / 2)
    let total_energy := (units.map (fun t => unitPower gantt t)).sum + context_switch_energy
    { total_energy := total_energy
      busy_energy := busy_energy
      idle_energy := idle_energy
      context_switch_energy := context_switch_energy
      power_timeline := units.map (fun t =>
        { time := t
          power := round2 (unitPower gantt t)
          state := if unitBusySeg gantt t then dvfsCommitted gantt t else "IDLE"
          utilization := round2 (windowUtil gantt t) })
      frequency_timeline := units.map (fun t =>
        { time := t
          frequency := round2 (if unitBusySeg gantt t then stateFreq (dvfsCommitted gantt t) else 0)
          state := if unitBusySeg gantt t then dvfsCommitted gantt t else "IDLE" })
      avg_power := some (if 0 < ganttMaxTime gantt then
        round2 (total_energy / (ganttMaxTime gantt : ℚ)) else 0) }

/-! ## Multi-core scheduler (`multicore_scheduler.py`) -/

/-- A CPU core record (the source's unused per-core `timeline` list is
omitted). -/
structure Core where
  id : Nat
  current : Option Process := none
  gantt : List Seg := []
  busy_until : Int := 0
  total_busy_time : Int := 0
  processes_completed : Nat := 0
deriving Repr, DecidableEq

/-- Strict comparison for `min(ready_queue, key=lambda p: (p.remaining,
p.pid))`: Python's `min` keeps the earliest element on key ties, so a
later element replaces the current best only when its key is strictly
smaller. -/
def ltRemPid (a b : Process) : Bool :=
  decide (a.remaining < b.remaining ∨ (a.remaining = b.remaining ∧ a.pid < b.pid))

/-- Strict comparison for `min(..., key=lambda p: (p.priority, p.arrival,
p.pid))`. -/
def ltPrioArrPid (a b : Process) : Bool :=
  decide (a.priority < b.priority ∨ (a.priority = b.priority ∧
    (a.arrival < b.arrival ∨ (a.arrival = b.arrival ∧ a.pid < b.pid))))

/-- `min(queue, key=...)` together with the index of the (first) minimal
element; the index stands in for Python's identity-based
`queue.remove(process)`. -/
def firstMinAux (lt : Process → Process → Bool) :
    List Process → Nat → Option (Process × Nat) → Option (Process × Nat)
  | [], _, acc => acc
  | p :: rest, i, acc =>
    let acc1 := match acc with
      | none => some (p, i)
      | some (b, _) => if lt p b then some (p, i) else acc
    firstMinAux lt rest (i + 1) acc1

/-- First minimum of a queue under a strict comparison. -/
def firstMinBy (lt : Process → Process → Bool) (l : List Process) :
    Option (Process × Nat) :=
  firstMinAux lt l 0 none

/-- `multicore_scheduler.select_next_process` (the `current_time`
parameter is accepted and unused, as in the source); the result carries
the queue index of the selected process. -/
def select_next_process (ready_queue : List Process) (algorithm : String)
    (current_time : Int) : Option (Process × Nat) :=
  if ready_queue = [] then none
  else if algorithm = "fcfs" then ready_queue.head?.map (fun p => (p, 0))
  else if algorithm = "sjf" ∨ algorithm = "sjf_non_preemptive" then
    firstMinBy ltRemPid ready_queue
  else if algorithm = "sjf_preemptive" ∨ algorithm = "srtf" then
    firstMinBy ltRemPid ready_queue
  else if algorithm = "round_robin" then ready_queue.head?.map (fun p => (p, 0))
  else if algorithm = "priority" then firstMinBy ltPrioArrPid ready_queue
  else if algorithm = "eah" then firstMinBy ltRemPid ready_queue
  else ready_queue.head?.map (fun p => (p, 0))

/-- The core-assignment pass (`for core in cores: if idle and queue:
dispatch`), threading the shared ready queue and the context-switch
count through the core list. -/
def dispatchCores (alg : String) (quantum : Int) (t : Int) :
    List Core → List Process → Nat → List Core × List Process × Nat
  | [], q, n => ([], q, n)
  | c :: cores, q, n =>
    if c.current = none ∧ q ≠ [] then
      match select_next_process q alg t with
      | some (p, i) =>
        let q1 := q.eraseIdx i
        let p1 := if p.start_time = -1 then { p with start_time := t } else p
        let ex := if alg = "round_robin" then min quantum p1.remaining else p1.remaining
        let c1 := { c with current := some p1, busy_until := t + ex }
        let r := dispatchCores alg quantum t cores q1 (n + 1)
        (c1 :: r.1, r.2)
      | none =>
        let r := dispatchCores alg quantum t cores q n
        (c :: r.1, r.2)
    else
      let r := dispatchCores alg quantum t cores q n
      (c :: r.1, r.2)

/-- `min(core['busy_until'] for busy cores)`; `none` embeds the
`float('inf')` case (no core busy). -/
def nextEvent (cores : List Core) : Option Int :=
  (cores.filterMap (fun c => if c.current.isSome then some c.busy_until else none)).min?

/-- The completion pass (`for core in cores: if busy_until <=
current_time: finish the slice`), threading the ready queue (Round Robin
re-queuing) and the completed list. -/
def completeCores (alg : String) (quantum : Int) (t : Int) :
    List Core → List Process → List Process → List Core × List Process × List Process
  | [], q, done => ([], q, done)
  | c :: cores, q, done =>
    match c.current with
    | some p =>
      if c.busy_until ≤ t then
        let ex := if alg = "round_robin" then min quantum p.remaining else p.remaining
        let p1 := { p with remaining := p.remaining - ex }
        let seg := Seg.mk (pidLabel p.pid) (c.busy_until - ex) c.busy_until (some c.id) none
        let c1 := { c with
          total_busy_time := c.total_busy_time + ex
          gantt := c.gantt ++ [seg]
          current := none }
        if p1.remaining ≤ 0 then
          let p2 := { p1 with
            completion := t
            turnaround := t - p1.arrival
            waiting := t - p1.arrival - p1.burst }
          let c2 := { c1 with processes_completed := c1.processes_completed + 1 }
          let r := completeCores alg quantum t cores q (done ++ [p2])
          (c2 :: r.1, r.2)
        else
          let q1 := if alg = "round_robin" then q ++ [p1] else q
          let r := completeCores alg quantum t cores q1 done
          (c1 :: r.1, r.2)
      else
        let r := completeCores alg quantum t cores q done
        (c :: r.1, r.2)
    | none =>
      let r := completeCores alg quantum t cores q done
      (c :: r.1, r.2)

/-- Multi-core simulation state. -/
structure MCState where
  time : Int := 0
  cores : List Core
  ready : List Process := []
  pending : List Process
  completed : List Process := []
  cs : Nat := 0
deriving Repr, DecidableEq

/-- Arrival admission of the multi-core loop (the source's
`process_index` walk over the `(arrival, pid)`-sorted list). -/
def mcAbsorb (s : MCState) : MCState :=
  { s with
    ready := s.ready ++ s.pending.takeWhile (fun p => decide (p.arrival ≤ s.time))
    pending := s.pending.dropWhile (fun p => decide (p.arrival ≤ s.time)) }

/-- The multi-core while loop with fuel.  When no core is busy and no
process is pending the Python loop `break`s; that exit returns the state
directly. -/
def mcGo (alg : String) (quantum : Int) (total : Nat) (maxTime : Int) :
    Nat → MCState → MCState
  | 0, s => s
  | fuel + 1, s =>
    if total ≤ s.completed.length ∨ maxTime ≤ s.time then s
    else
      let s1 := mcAbsorb s
      let d := dispatchCores alg quantum s1.time s1.cores s1.ready s1.cs
      match nextEvent d.1 with
      | none =>
        match s1.pending with
        | p :: _ =>
          mcGo alg quantum total maxTime fuel
            { s1 with cores := d.1, ready := d.2.1, cs := d.2.2, time := p.arrival }
        | [] => { s1 with cores := d.1, ready := d.2.1, cs := d.2.2 }
      | some te =>
        let f := completeCores alg quantum te d.1 d.2.1 s1.completed
        mcGo alg quantum total maxTime fuel
          { time := te, cores := f.1, ready := f.2.1, pending := s1.pending
            completed := f.2.2, cs := d.2.2 }

/-- The multi-core per-core utilization entry. -/
structure CoreUtil where
  core_id : Nat
  utilization : ℚ
  busy_time : Int
  processes_completed : Nat
deriving Repr, DecidableEq

/-- The multi-core result dict.  `load_balance_score = 100 -
sqrt(util_variance)` involves a float square root and is represented by
the variance it is computed from. -/
structure MCResult where
  algorithm : String
  num_cores : Nat
  processes : List ProcOut
  metrics : Metrics
  gantt : List Seg
  per_core_gantt : List (List Seg)
  context_switches : Nat
  core_utilizations : List CoreUtil
  avg_core_utilization : ℚ
  util_variance : ℚ
  speedup : ℚ
deriving Repr, DecidableEq

/-- `multicore_scheduler.calculate_speedup`: re-run the single-core
engine and divide makespans.  The `try/except` returning `1.0` is
reachable exactly when the single-core run raises, which happens for the
`max()`/mean computations on an empty process list (and for an unknown
algorithm the source returns `1.0` directly). -/
def calculate_speedup (input : List Proc) (multicore_time : Int)
    (algorithm : String) (quantum : Int) (threshold : Option ℚ) : ℚ :=
  let run? : Option SchedResult :=
    if algorithm = "fcfs" then some (fcfs input)
    else if algorithm = "sjf" ∨ algorithm = "sjf_non_preemptive" then
      some (sjf_non_preemptive input)
    else if input = [] then none
    else if algorithm = "sjf_preemptive" ∨ algorithm = "srtf" then
      some (sjf_preemptive input)
    else if algorithm = "round_robin" then some (round_robin input quantum)
    else if algorithm = "priority" then some (priority_scheduling input false)
    else if algorithm = "eah" then some (energy_aware_hybrid input threshold)
    else none
  match run? with
  | none => 1
  | some r =>
    if 0 < multicore_time then
      round2 ((r.metrics.total_completion : ℚ) / (multicore_time : ℚ))
    else 1

/-- The multi-core per-process result dict (adds `start_time`). -/
def procOutMc (p : Process) : ProcOut :=
  { procOutBasic p with start_time := some p.start_time }

/-- Comparator of the combined-gantt display sort
(`key=lambda x: x['start']`). -/
def leSegStart (a b : Seg) : Bool := decide (a.start ≤ b.start)

/-- `multicore_scheduler.multicore_schedule`. -/
def multicore_schedule (input : List Proc) (num_cores : Nat) (algorithm : String)
    (quantum : Int) (threshold : Option ℚ) : MCResult :=
  let ps := pySort leArrPid (input.map mkProcess)
  let cores := (List.range num_cores).map (fun i => ({ id := i } : Core))
  let maxTime := (ps.map (·.burst)).sum + ((ps.map (·.arrival)).max?).getD 0 + 100
  let fuel := 2 * (maxTime.toNat + ps.length) + 4
  let s := mcGo algorithm quantum ps.length maxTime fuel { cores := cores, pending := ps }
  let total_tat := (s.completed.map (·.turnaround)).sum
  let total_wt := (s.completed.map (·.waiting)).sum
  let n := s.completed.length
  let combined := pySort leSegStart (s.cores.flatMap (·.gantt))
  let total_time := s.time
  let core_utils : List CoreUtil := s.cores.map (fun c =>
    { core_id := c.id
      utilization := if 0 < total_time then
          round2 ((c.total_busy_time : ℚ) / (total_time : ℚ) * 100) else 0
      busy_time := c.total_busy_time
      processes_completed := c.processes_completed })
  let avg_util := ((core_utils.map (·.utilization)).sum) / (core_utils.length : ℚ)
  let variance :=
    ((core_utils.map (fun c => (c.utilization - avg_util) ^ 2)).sum) / (core_utils.length : ℚ)
  { algorithm := algorithm.toUpper ++ " (Multi-Core)"
    num_cores := num_cores
    processes := s.completed.map procOutMc
    metrics := { avg_turnaround := if 0 < n then round2 ((total_tat : ℚ) / (n : ℚ)) else 0
                 avg_waiting := if 0 < n then round2 ((total_wt : ℚ) / (n : ℚ)) else 0
                 total_completion := s.time }
    gantt := combined
    per_core_gantt := s.cores.map (·.gantt)
    context_switches := s.cs
    core_utilizations := core_utils
    avg_core_utilization := round2 avg_util
    util_variance := variance
    speedup := calculate_speedup input s.time algorithm quantum threshold }

/-! ## Request validation (`app.run_scheduler` / `server.run_scheduler`) -/

/-- An unvalidated process dict of a run request: any of the required
keys may be missing. -/
structure RawProc where
  pid : Option Int := none
  arrival : Option Int := none
  burst : Option Int := none
  priority : Option Int := none
deriving Repr, DecidableEq

/-- Field access after validation (`p['pid']` etc.; the defaults are
unreachable once validation has passed). -/
def rawToProc (p : RawProc) : Proc :=
  { pid := p.pid.getD 0, arrival := p.arrival.getD 0, burst := p.burst.getD 0
    priority := p.priority.getD 0 }

/-- The `/api/run` handler body (after JSON decoding and lowercasing of
the algorithm name): the validation gate followed by the dispatch on the
algorithm string.  `Except.error` is the caller-visible 400 response. -/
def run_scheduler (algorithm : String) (processes : List RawProc)
    (quantum : Int) (threshold : Option ℚ) (preemptive : Bool) :
    Except String SchedResult :=
  if processes = [] then .error "No processes provided"
  else if processes.any (fun p => p.pid = none ∨ p.arrival = none ∨ p.burst = none) then
    .error "Invalid process data. Required: pid, arrival, burst"
  else
    let ps := processes.map rawToProc
    if algorithm = "fcfs" then .ok (fcfs ps)
    else if algorithm = "sjf" ∨ algorithm = "sjf_non_preemptive" then
      .ok (sjf_non_preemptive ps)
    else if algorithm = "sjf_preemptive" ∨ algorithm = "srtf" then
      .ok (sjf_preemptive ps)
    else if algorithm = "round_robin" ∨ algorithm = "rr" then .ok (round_robin ps quantum)
    else if algorithm = "priority" then .ok (priority_scheduling ps preemptive)
    else if algorithm = "eah" ∨ algorithm = "energy_aware_hybrid" then
      .ok (energy_aware_hybrid ps threshold)
    else .error ("Unknown algorithm: " ++ algorithm)

/-! ## Order lemmas for the stable sorts -/

theorem lex3_refl (a : Int × Int × Int) : lex3 a a := by
  unfold lex3; omega

theorem lex3_trans {a b c : Int × Int × Int} (h1 : lex3 a b) (h2 : lex3 b c) : lex3 a c := by
  unfold lex3 at *; omega

theorem lex3_total (a b : Int × Int × Int) : lex3 a b ∨ lex3 b a := by
  unfold lex3; omega

theorem lex3_antisymm {a b : Int × Int × Int} (h1 : lex3 a b) (h2 : lex3 b a) : a = b := by
  unfold lex3 at h1 h2
  have e1 : a.1 = b.1 := by omega
  have e2 : a.2.1 = b.2.1 := by omega
  have e3 : a.2.2 = b.2.2 := by omega
  have : a.2 = b.2 := Prod.ext e2 e3
  exact Prod.ext e1 this

theorem key3le_trans (k : Process → Int × Int × Int) :
    ∀ a b c, key3le k a b = true → key3le k b c = true → key3le k a c = true := by
  intro a b c h1 h2
  simp only [key3le, decide_eq_true_eq] at *
  exact lex3_trans h1 h2

theorem key3le_total (k : Process → Int × Int × Int) :
    ∀ a b, (key3le k a b || key3le k b a) = true := by
  intro a b
  simp only [key3le, Bool.or_eq_true, decide_eq_true_eq]
  exact lex3_total _ _

/-- The head of a stable key-sort is below every list member in the key
order. -/
theorem pySort_head_le (k : Process → Int × Int × Int) {l : List Process}
    {p : Process} {rest : List Process}
    (h : pySort (key3le k) l = p :: rest) :
    ∀ r ∈ l, lex3 (k p) (k r) := by
  intro r hr
  have hs := pySort_sorted (key3le k) (key3le_trans k) (key3le_total k) l
  rw [h] at hs
  have hmem : r ∈ p :: rest := by
    rw [← h, mem_pySort]; exact hr
  rcases List.mem_cons.mp hmem with rfl | htail
  · exact lex3_refl _
  · have := (List.pairwise_cons.mp hs).1 r htail
    simpa [key3le, decide_eq_true_eq] using this

/-- The head of a sort is a member of the list. -/
theorem pySort_head_mem {le : Process → Process → Bool} {l : List Process}
    {p : Process} {rest : List Process} (h : pySort le l = p :: rest) : p ∈ l := by
  have : p ∈ pySort le l := by rw [h]; exact List.mem_cons_self _ _
  rwa [mem_pySort] at this

/-- If `q` is strictly below (in the key order) every other list member,
the head of the stable key-sort is `q`. -/
theorem pySort_head_eq_of_strict (k : Process → Int × Int × Int) {l : List Process}
    {p q : Process} {rest : List Process}
    (h : pySort (key3le k) l = p :: rest) (hq : q ∈ l)
    (hstrict : ∀ r ∈ l, r ≠ q → lex3 (k q) (k r) ∧ k q ≠ k r) : p = q := by
  by_cases hpq : p = q
  · exact hpq
  · have hp : p ∈ l := pySort_head_mem h
    have h1 := (hstrict p hp hpq).2
    have h2 := (hstrict p hp hpq).1
    have h3 := pySort_head_le k h q hq
    exact absurd (lex3_antisymm h3 h2) (Ne.symm h1)

/-- Members of a list with nodup mapped pids are determined by their
pid. -/
theorem eq_of_pid_eq {l : List Process} (hnd : (l.map (·.pid)).Nodup)
    {a b : Process} (ha : a ∈ l) (hb : b ∈ l) (hpid : a.pid = b.pid) : a = b :=
  List.inj_on_of_nodup_map hnd ha hb hpid

/-! ## Gantt chain machinery -/

/-- Duration of a segment. -/
def segDur (s : Seg) : Int := s.stop - s.start

/-- `chainFrom t g T`: the segments of `g` are contiguous and
non-degenerate, starting at time `t` and ending at time `T` — hence they
tile the interval `[t, T)` with no gaps and no overlaps. -/
def chainFrom : Int → List Seg → Int → Prop
  | t, [], T => T = t
  | t, seg :: rest, T => seg.start = t ∧ seg.start ≤ seg.stop ∧ chainFrom seg.stop rest T

/-- `revChain T g`: the reversed-gantt invariant — `g.reverse` chains
from 0 to `T`. -/
def revChain : Int → List Seg → Prop
  | T, [] => T = 0
  | T, seg :: rest => seg.stop = T ∧ seg.start ≤ seg.stop ∧ revChain seg.start rest

theorem chainFrom_append {a b c : Int} {g h : List Seg}
    (h1 : chainFrom a g b) (h2 : chainFrom b h c) : chainFrom a (g ++ h) c := by
  induction g generalizing a with
  | nil => simpa [chainFrom] using h1 ▸ h2
  | cons s rest ih =>
    obtain ⟨hs, hle, hc⟩ := h1
    exact ⟨hs, hle, ih hc⟩

theorem revChain_reverse {T : Int} {g : List Seg} (h : revChain T g) :
    chainFrom 0 g.reverse T := by
  induction g generalizing T with
  | nil => simp only [revChain] at h; simp [chainFrom, h]
  | cons s rest ih =>
    obtain ⟨hstop, hle, hc⟩ := h
    have : chainFrom s.start [s] T := ⟨rfl, hle, hstop.symm ▸ rfl⟩
    simpa using chainFrom_append (ih hc) this

theorem chainFrom_sum {a b : Int} {g : List Seg} (h : chainFrom a g b) :
    (g.map segDur).sum = b - a := by
  induction g generalizing a with
  | nil => simp [chainFrom] at h; simp [h]
  | cons s rest ih =>
    obtain ⟨hs, _, hc⟩ := h
    have := ih hc
    simp only [List.map_cons, List.sum_cons, this, segDur, hs]
    ring

theorem chainFrom_last_stop {a b : Int} {g : List Seg} (h : chainFrom a g b) :
    ((g.getLast?).map (·.stop)).getD a = b := by
  induction g generalizing a with
  | nil => simp [chainFrom] at h; simp [h]
  | cons s rest ih =>
    obtain ⟨_, _, hc⟩ := h
    have := ih hc
    cases rest with
    | nil => simpa [chainFrom] using hc.symm
    | cons x xs => simpa [List.getLast?_cons_cons] using this

/-- Final stop of a gantt chart in display order (0 when empty). -/
def ganttEnd (g : List Seg) : Int := ((g.getLast?).map (·.stop)).getD 0

theorem revChain_ganttEnd {T : Int} {g : List Seg} (h : revChain T g) :
    ganttEnd g.reverse = T := by
  have := chainFrom_last_stop (revChain_reverse h)
  simpa [ganttEnd] using this

theorem revChain_pushIdleR {t u : Int} {g : List Seg} (h : revChain t g) (hle : t ≤ u) :
    revChain u (pushIdleR g t u) := by
  cases g with
  | nil =>
    simp only [revChain] at h
    subst h
    exact ⟨rfl, hle, rfl⟩
  | cons s rest =>
    obtain ⟨hstop, hsle, hc⟩ := h
    unfold pushIdleR
    by_cases hp : s.process = "IDLE"
    · simp only [hp, if_true]
      exact ⟨rfl, by simp; omega, hc⟩
    · simp only [hp, if_false]
      exact ⟨rfl, hle, hstop, hsle, hc⟩

theorem revChain_pushSegR {t u : Int} {g : List Seg} {label : String}
    (h : revChain t g) (hle : t ≤ u) : revChain u (pushSegR g label t u) := by
  cases g with
  | nil =>
    simp only [revChain] at h
    subst h
    exact ⟨rfl, hle, rfl⟩
  | cons s rest =>
    obtain ⟨hstop, hsle, hc⟩ := h
    unfold pushSegR
    by_cases hp : s.process = label
    · simp only [hp, if_true]
      exact ⟨rfl, by simp; omega, hc⟩
    · simp only [hp, if_false]
      exact ⟨rfl, hle, hstop, hsle, hc⟩

theorem revChain_cons {t u : Int} {g : List Seg} {label : String}
    {c : Option Nat} {cl : Option String} (h : revChain t g) (hle : t ≤ u) :
    revChain u (Seg.mk label t u c cl :: g) := ⟨rfl, hle, h⟩

/-- If no process has arrived (`takeWhile` empty) and a process is
pending, the head of the pending list arrives strictly later than now. -/
theorem head_arrival_gt {t : Int} {l : List Process} {q : Process} {rest : List Process}
    (hl : l.takeWhile (fun p => decide (p.arrival ≤ t)) = [])
    (hq : l.dropWhile (fun p => decide (p.arrival ≤ t)) = q :: rest) : t < q.arrival := by
  cases l with
  | nil => simp at hq
  | cons a as =>
    rw [List.takeWhile_cons] at hl
    by_cases h : a.arrival ≤ t
    · simp [h] at hl
    · rw [List.dropWhile_cons, if_neg (by simpa using h)] at hq
      cases hq
      omega

/-! ## Coverage invariant of the single-core engines -/

/-- The loop invariant giving gap-free, non-overlapping gantt coverage:
the reversed gantt chains from 0 to the current time, all queued
processes have positive burst and remaining time, and every completed
process finished no later than now. -/
structure GInv (s : SimState) : Prop where
  chain : revChain s.time s.rgantt
  queued : ∀ p ∈ s.ready ++ s.pending, 1 ≤ p.burst ∧ 1 ≤ p.remaining
  doneLe : ∀ p ∈ s.completed, p.completion ≤ s.time

theorem absorb_mem (s : SimState) (p : Process) :
    p ∈ (absorb s).ready ++ (absorb s).pending ↔ p ∈ s.ready ++ s.pending := by
  simp only [absorb, List.append_assoc, List.takeWhile_append_dropWhile]

theorem GInv_absorb {s : SimState} (h : GInv s) : GInv (absorb s) where
  chain := h.chain
  queued := fun p hp => h.queued p ((absorb_mem s p).mp hp)
  doneLe := h.doneLe

/-- Queued-processes bound for members of a sort of the ready queue. -/
theorem queued_of_sorted_mem {s : SimState} (h : GInv s)
    {le : Process → Process → Bool} {p : Process}
    (hp : p ∈ pySort le (absorb s).ready) : 1 ≤ p.burst ∧ 1 ≤ p.remaining := by
  have : p ∈ (absorb s).ready := mem_pySort.mp hp
  exact (GInv_absorb h).queued p (List.mem_append_left _ this)

/-- `maxCompletion` equals `T` when every completion is at most `T` and
some completion attains it. -/
theorem maxCompletion_eq {l : List Process} {T : Int}
    (hle : ∀ p ∈ l, p.completion ≤ T) (hw : ∃ p ∈ l, p.completion = T) :
    maxCompletion l = T := by
  obtain ⟨p, hp, hpT⟩ := hw
  letI : Std.Antisymm (fun (x1 x2 : Int) => x1 ≤ x2) := ⟨by intro a b h1 h2; omega⟩
  have hmax : (l.map (·.completion)).max? = some T := by
    rw [List.max?_eq_some_iff (le_refl) (max_choice) (fun a b c => max_le_iff)]
    constructor
    · exact hpT ▸ List.mem_map_of_mem _ hp
    · intro b hb
      obtain ⟨q, hq, rfl⟩ := List.mem_map.mp hb
      exact hle q hq
  simp [maxCompletion, hmax]

/-- The go-level invariant: coverage plus the conditional witness that a
fully-completed state's makespan equals the final clock. -/
def GW (total : Nat) (s : SimState) : Prop :=
  GInv s ∧ (s.completed.length = total → maxCompletion s.completed = s.time)

/-- The empty takeWhile fact available in the idle branch. -/
theorem idle_take_nil {s : SimState} (hready : (absorb s).ready = []) :
    s.pending.takeWhile (fun p => decide (p.arrival ≤ s.time)) = [] := by
  have : (absorb s).ready = s.ready ++ s.pending.takeWhile
      (fun p => decide (p.arrival ≤ s.time)) := rfl
  rcases List.append_eq_nil.mp (this ▸ hready) with ⟨_, h2⟩
  exact h2

/-- In the idle branch the pending head arrives strictly after now. -/
theorem idle_head_gt {s : SimState} {q : Process} {rest : List Process}
    (hready : (absorb s).ready = []) (hpend : (absorb s).pending = q :: rest) :
    s.time < q.arrival :=
  head_arrival_gt (idle_take_nil hready) hpend

/-! ### SJF non-preemptive: invariant preservation -/

theorem sjfNpStep_GW {total : Nat} {s : SimState} (h : GW total s)
    (hlt : s.completed.length < total) : GW total (sjfNpStep s) := by
  obtain ⟨hinv, hwit⟩ := h
  have hinv1 := GInv_absorb hinv
  dsimp only [sjfNpStep]
  rcases hready : (absorb s).ready with _ | ⟨a, as⟩
  · dsimp only
    rcases hpend : (absorb s).pending with _ | ⟨q, rest⟩
    · exact ⟨hinv1, fun hl => hwit hl⟩
    · have hq : s.time < q.arrival := idle_head_gt hready hpend
      refine ⟨⟨?_, ?_, ?_⟩, ?_⟩
      · exact revChain_pushIdleR hinv1.chain (le_of_lt hq)
      · intro p hp
        exact hinv1.queued p (by simpa [hready, hpend] using hp)
      · intro p hp
        exact le_trans (hinv1.doneLe p hp) (le_of_lt hq)
      · intro hl
        exact absurd hl (Nat.ne_of_lt hlt)
  · dsimp only
    rcases hsort : pySort leBurstArrPid (a :: as) with _ | ⟨p, rest⟩
    · exact ⟨hinv1, fun hl => hwit hl⟩
    · dsimp only
      have hpmem : p ∈ pySort leBurstArrPid (absorb s).ready := by
        rw [hready, hsort]; exact List.mem_cons_self p rest
      have hpq := queued_of_sorted_mem hinv hpmem
      have htime : (absorb s).time ≤ (runProc p (absorb s).time).completion := by
        simp only [runProc]; omega
      refine ⟨⟨?_, ?_, ?_⟩, ?_⟩
      · exact revChain_cons hinv1.chain (by simp only [runProc]; omega)
      · intro r hr
        apply hinv1.queued
        rcases List.mem_append.mp hr with h1 | h1
        · refine List.mem_append_left _
            ((@mem_pySort _ leBurstArrPid _ _).mp ?_)
          rw [hready, hsort]
          exact List.mem_cons_of_mem p h1
        · exact List.mem_append_right _ h1
      · intro r hr
        rcases List.mem_append.mp hr with h1 | h1
        · exact le_trans (hinv1.doneLe r h1) htime
        · simp only [List.mem_singleton] at h1
          subst h1; simp only [runProc]; omega
      · intro _
        apply maxCompletion_eq
        · intro r hr
          rcases List.mem_append.mp hr with h1 | h1
          · exact le_trans (hinv1.doneLe r h1) htime
          · simp only [List.mem_singleton] at h1
            exact h1 ▸ le_refl _
        · exact ⟨runProc p (absorb s).time,
            List.mem_append_right _ (List.mem_singleton_self _), rfl⟩

theorem sjfNpGo_GW {total : Nat} : ∀ fuel (s : SimState),
    GW total s → GW total (sjfNpGo total fuel s) := by
  intro fuel
  induction fuel with
  | zero => intro s h; exact h
  | succ n ih =>
    intro s h
    dsimp only [sjfNpGo]
    split
    · exact h
    · rename_i hc
      exact ih _ (sjfNpStep_GW h (by omega))

/-- The idle branch shared by every loop engine preserves the
invariant. -/
theorem GW_idle {total : Nat} {s : SimState} {q : Process} {rest : List Process}
    (h : GW total s) (hlt : s.completed.length < total)
    (hready : (absorb s).ready = []) (hpend : (absorb s).pending = q :: rest) :
    GW total { time := q.arrival
               ready := []
               pending := q :: rest
               completed := (absorb s).completed
               rgantt := pushIdleR (absorb s).rgantt (absorb s).time q.arrival
               rtimeline := (absorb s).rtimeline
               cs := (absorb s).cs
               last := (absorb s).last } := by
  obtain ⟨hinv, hwit⟩ := h
  have hinv1 := GInv_absorb hinv
  have hq : s.time < q.arrival := idle_head_gt hready hpend
  refine ⟨⟨?_, ?_, ?_⟩, ?_⟩
  · exact revChain_pushIdleR hinv1.chain (le_of_lt hq)
  · intro p hp
    refine hinv1.queued p ?_
    rw [hready, hpend]
    simpa using hp
  · intro p hp
    exact le_trans (hinv1.doneLe p hp) (le_of_lt hq)
  · intro hl
    exact absurd hl (Nat.ne_of_lt hlt)

/-! ### Priority non-preemptive: invariant preservation -/

theorem prioNpStep_GW {total : Nat} {s : SimState} (h : GW total s)
    (hlt : s.completed.length < total) : GW total (prioNpStep s) := by
  obtain ⟨hinv, hwit⟩ := h
  have hinv1 := GInv_absorb hinv
  dsimp only [prioNpStep]
  rcases hready : (absorb s).ready with _ | ⟨a, as⟩
  · dsimp only
    rcases hpend : (absorb s).pending with _ | ⟨q, rest⟩
    · exact ⟨hinv1, fun hl => hwit hl⟩
    · dsimp only
      exact GW_idle ⟨hinv, hwit⟩ hlt hready hpend
  · dsimp only
    rcases hsort : pySort lePrioArrPid (a :: as) with _ | ⟨p, rest⟩
    · exact ⟨hinv1, fun hl => hwit hl⟩
    · dsimp only
      have hpmem : p ∈ pySort lePrioArrPid (absorb s).ready := by
        rw [hready, hsort]; exact List.mem_cons_self p rest
      have hpq := queued_of_sorted_mem hinv hpmem
      have htime : (absorb s).time ≤ (runProc p (absorb s).time).completion := by
        simp only [runProc]; omega
      refine ⟨⟨?_, ?_, ?_⟩, ?_⟩
      · exact revChain_cons hinv1.chain (by simp only [runProc]; omega)
      · intro r hr
        apply hinv1.queued
        rcases List.mem_append.mp hr with h1 | h1
        · refine List.mem_append_left _
            ((@mem_pySort _ lePrioArrPid _ _).mp ?_)
          rw [hready, hsort]
          exact List.mem_cons_of_mem p h1
        · exact List.mem_append_right _ h1
      · intro r hr
        rcases List.mem_append.mp hr with h1 | h1
        · exact le_trans (hinv1.doneLe r h1) htime
        · simp only [List.mem_singleton] at h1
          subst h1; simp only [runProc]; omega
      · intro _
        apply maxCompletion_eq
        · intro r hr
          rcases List.mem_append.mp hr with h1 | h1
          · exact le_trans (hinv1.doneLe r h1) htime
          · simp only [List.mem_singleton] at h1
            exact h1 ▸ le_refl _
        · exact ⟨runProc p (absorb s).time,
            List.mem_append_right _ (List.mem_singleton_self _), rfl⟩

theorem prioNpGo_GW {total : Nat} {maxTime : Int} : ∀ fuel (s : SimState),
    GW total s → GW total (prioNpGo total maxTime fuel s) := by
  intro fuel
  induction fuel with
  | zero => intro s h; exact h
  | succ n ih =>
    intro s h
    dsimp only [prioNpGo]
    split
    · exact h
    · rename_i hc
      push_neg at hc
      exact ih _ (prioNpStep_GW h (by omega))

/-! ### SRTF: invariant preservation -/

theorem srtfStep_GW {total : Nat} {s : SimState} (h : GW total s)
    (hlt : s.completed.length < total) : GW total (srtfStep s) := by
  obtain ⟨hinv, hwit⟩ := h
  have hinv1 := GInv_absorb hinv
  dsimp only [srtfStep]
  rcases hready : (absorb s).ready with _ | ⟨a, as⟩
  · dsimp only
    rcases hpend : (absorb s).pending with _ | ⟨q, rest⟩
    · exact ⟨hinv1, fun hl => hwit hl⟩
    · dsimp only
      exact GW_idle ⟨hinv, hwit⟩ hlt hready hpend
  · dsimp only
    rcases hsort : pySort leRemArrPid (a :: as) with _ | ⟨p, rest⟩
    · exact ⟨hinv1, fun hl => hwit hl⟩
    · dsimp only
      have hpmem : p ∈ pySort leRemArrPid (absorb s).ready := by
        rw [hready, hsort]; exact List.mem_cons_self p rest
      have hpq := queued_of_sorted_mem hinv hpmem
      by_cases hst : p.start_time = -1 <;>
        simp only [hst, if_true, if_false, reduceIte] <;>
      · have hchain := @revChain_pushSegR _ _ _ (pidLabel p.pid) hinv1.chain
          (show (absorb s).time ≤ (absorb s).time + 1 by omega)
        have hrestq : ∀ r ∈ rest, 1 ≤ r.burst ∧ 1 ≤ r.remaining := by
          intro r h1
          apply hinv1.queued
          refine List.mem_append_left _
            ((@mem_pySort _ leRemArrPid _ _).mp ?_)
          rw [hready, hsort]
          exact List.mem_cons_of_mem p h1
        split
        · -- completion at this unit
          refine ⟨⟨?_, ?_, ?_⟩, ?_⟩
          · exact hchain
          · intro r hr
            rcases List.mem_append.mp hr with h1 | h1
            · exact hrestq r h1
            · exact hinv1.queued r (List.mem_append_right _ h1)
          · intro r hr
            dsimp only
            rcases List.mem_append.mp hr with h1 | h1
            · exact le_trans (hinv1.doneLe r h1) (by omega)
            · simp only [List.mem_singleton] at h1
              subst h1; simp
          · intro hlall
            dsimp only
            apply maxCompletion_eq
            · intro r hr
              rcases List.mem_append.mp hr with h1 | h1
              · exact le_trans (hinv1.doneLe r h1) (by omega)
              · simp only [List.mem_singleton] at h1
                exact h1 ▸ le_refl _
            · exact ⟨_, List.mem_append_right _ (List.mem_singleton_self _), rfl⟩
        · -- preempted with work left
          rename_i hrem
          refine ⟨⟨?_, ?_, ?_⟩, ?_⟩
          · exact hchain
          · intro r hr
            rcases List.mem_append.mp hr with h1 | h1
            · rcases List.mem_cons.mp h1 with rfl | h2
              · constructor
                · simpa using hpq.1
                · simp only at hrem ⊢
                  omega
              · exact hrestq r h2
            · exact hinv1.queued r (List.mem_append_right _ h1)
          · intro r hr
            dsimp only
            exact le_trans (hinv1.doneLe r hr) (by omega)
          · intro hl
            exact absurd hl (Nat.ne_of_lt hlt)

theorem srtfGo_GW {total : Nat} {maxTime : Int} : ∀ fuel (s : SimState),
    GW total s → GW total (srtfGo total maxTime fuel s) := by
  intro fuel
  induction fuel with
  | zero => intro s h; exact h
  | succ n ih =>
    intro s h
    dsimp only [srtfGo]
    split
    · exact h
    · rename_i hc
      push_neg at hc
      exact ih _ (srtfStep_GW h (by omega))

/-! ### Priority preemptive: invariant preservation -/

theorem prioPStep_GW {total : Nat} {s : SimState} (h : GW total s)
    (hlt : s.completed.length < total) : GW total (prioPStep s) := by
  obtain ⟨hinv, hwit⟩ := h
  have hinv1 := GInv_absorb hinv
  dsimp only [prioPStep]
  rcases hready : (absorb s).ready with _ | ⟨a, as⟩
  · dsimp only
    rcases hpend : (absorb s).pending with _ | ⟨q, rest⟩
    · exact ⟨hinv1, fun hl => hwit hl⟩
    · dsimp only
      exact GW_idle ⟨hinv, hwit⟩ hlt hready hpend
  · dsimp only
    rcases hsort : pySort lePrioArrPid (a :: as) with _ | ⟨p, rest⟩
    · exact ⟨hinv1, fun hl => hwit hl⟩
    · dsimp only
      have hpmem : p ∈ pySort lePrioArrPid (absorb s).ready := by
        rw [hready, hsort]; exact List.mem_cons_self p rest
      have hpq := queued_of_sorted_mem hinv hpmem
      by_cases hst : p.start_time = -1 <;>
        simp only [hst, if_true, if_false, reduceIte] <;>
      · have hchain := @revChain_pushSegR _ _ _ (pidLabel p.pid) hinv1.chain
          (show (absorb s).time ≤ (absorb s).time + 1 by omega)
        have hrestq : ∀ r ∈ rest, 1 ≤ r.burst ∧ 1 ≤ r.remaining := by
          intro r h1
          apply hinv1.queued
          refine List.mem_append_left _
            ((@mem_pySort _ lePrioArrPid _ _).mp ?_)
          rw [hready, hsort]
          exact List.mem_cons_of_mem p h1
        split
        · refine ⟨⟨?_, ?_, ?_⟩, ?_⟩
          · exact hchain
          · intro r hr
            rcases List.mem_append.mp hr with h1 | h1
            · exact hrestq r h1
            · exact hinv1.queued r (List.mem_append_right _ h1)
          · intro r hr
            dsimp only
            rcases List.mem_append.mp hr with h1 | h1
            · exact le_trans (hinv1.doneLe r h1) (by omega)
            · simp only [List.mem_singleton] at h1
              subst h1; simp
          · intro hlall
            dsimp only
            apply maxCompletion_eq
            · intro r hr
              rcases List.mem_append.mp hr with h1 | h1
              · exact le_trans (hinv1.doneLe r h1) (by omega)
              · simp only [List.mem_singleton] at h1
                exact h1 ▸ le_refl _
            · exact ⟨_, List.mem_append_right _ (List.mem_singleton_self _), rfl⟩
        · rename_i hrem
          refine ⟨⟨?_, ?_, ?_⟩, ?_⟩
          · exact hchain
          · intro r hr
            rcases List.mem_append.mp hr with h1 | h1
            · rcases List.mem_cons.mp h1 with rfl | h2
              · constructor
                · simpa using hpq.1
                · simp only at hrem ⊢
                  omega
              · exact hrestq r h2
            · exact hinv1.queued r (List.mem_append_right _ h1)
          · intro r hr
            dsimp only
            exact le_trans (hinv1.doneLe r hr) (by omega)
          · intro hl
            exact absurd hl (Nat.ne_of_lt hlt)

theorem prioPGo_GW {total : Nat} {maxTime : Int} : ∀ fuel (s : SimState),
    GW total s → GW total (prioPGo total maxTime fuel s) := by
  intro fuel
  induction fuel with
  | zero => intro s h; exact h
  | succ n ih =>
    intro s h
    dsimp only [prioPGo]
    split
    · exact h
    · rename_i hc
      push_neg at hc
      exact ih _ (prioPStep_GW h (by omega))

/-! ### Round Robin: invariant preservation -/

theorem rrStep_GW {quantum : Int} (hq : 0 ≤ quantum) {total : Nat} {s : SimState}
    (h : GW total s) (hlt : s.completed.length < total) :
    GW total (rrStep quantum s) := by
  obtain ⟨hinv, hwit⟩ := h
  have hinv1 := GInv_absorb hinv
  dsimp only [rrStep]
  rcases hready : (absorb s).ready with _ | ⟨p, rest⟩
  · dsimp only
    rcases hpend : (absorb s).pending with _ | ⟨q, rest⟩
    · exact ⟨hinv1, fun hl => hwit hl⟩
    · dsimp only
      exact GW_idle ⟨hinv, hwit⟩ hlt hready hpend
  · dsimp only
    have hpq : 1 ≤ p.burst ∧ 1 ≤ p.remaining := by
      apply hinv1.queued
      rw [hready]
      exact List.mem_append_left _ (List.mem_cons_self p rest)
    have hqmem : ∀ r, r ∈ rest ++
        (absorb s).pending.takeWhile (fun x => decide (x.arrival ≤ (absorb s).time + min quantum p.remaining)) →
        r ∈ (absorb s).ready ++ (absorb s).pending := by
      intro r hr
      rcases List.mem_append.mp hr with h1 | h1
      · refine List.mem_append_left _ ?_
        rw [hready]; exact List.mem_cons_of_mem p h1
      · exact List.mem_append_right _ ((List.takeWhile_sublist _).mem h1)
    have hpendmem : ∀ r, r ∈ (absorb s).pending.dropWhile
        (fun x => decide (x.arrival ≤ (absorb s).time + min quantum p.remaining)) →
        r ∈ (absorb s).ready ++ (absorb s).pending := by
      intro r hr
      exact List.mem_append_right _ ((List.dropWhile_sublist _).mem hr)
    by_cases hst : p.start_time = -1 <;>
      simp only [hst, if_true, if_false, reduceIte] <;>
    · have hex : 0 ≤ min quantum p.remaining := le_min hq (by omega)
      have hchain := @revChain_cons _ _ _ (pidLabel p.pid) none none
        hinv1.chain (show (absorb s).time ≤ (absorb s).time + min quantum p.remaining by omega)
      split
      · -- completed within the slice
        refine ⟨⟨?_, ?_, ?_⟩, ?_⟩
        · exact hchain
        · intro r hr
          dsimp only at hr
          rcases List.mem_append.mp hr with h1 | h1
          · exact hinv1.queued r (hqmem r h1)
          · exact hinv1.queued r (hpendmem r h1)
        · intro r hr
          dsimp only
          rcases List.mem_append.mp hr with h1 | h1
          · exact le_trans (hinv1.doneLe r h1) (by omega)
          · simp only [List.mem_singleton] at h1
            subst h1; simp
        · intro hlall
          dsimp only
          apply maxCompletion_eq
          · intro r hr
            rcases List.mem_append.mp hr with h1 | h1
            · exact le_trans (hinv1.doneLe r h1) (by omega)
            · simp only [List.mem_singleton] at h1
              exact h1 ▸ le_refl _
          · exact ⟨_, List.mem_append_right _ (List.mem_singleton_self _), rfl⟩
      · -- preempted with work left
        rename_i hrem
        refine ⟨⟨?_, ?_, ?_⟩, ?_⟩
        · exact hchain
        · intro r hr
          dsimp only at hr
          rcases List.mem_append.mp hr with h1 | h1
          · rcases List.mem_append.mp h1 with h2 | h2
            · exact hinv1.queued r (hqmem r h2)
            · simp only [List.mem_singleton] at h2
              subst h2
              refine ⟨by simpa using hpq.1, ?_⟩
              simp only at hrem ⊢
              have := min_le_right quantum p.remaining
              omega
          · exact hinv1.queued r (hpendmem r h1)
        · intro r hr
          dsimp only
          exact le_trans (hinv1.doneLe r hr) (by omega)
        · intro hl
          exact absurd hl (Nat.ne_of_lt hlt)

theorem rrGo_GW {quantum : Int} (hq : 0 ≤ quantum) {total : Nat} {maxTime : Int} :
    ∀ fuel (s : SimState), GW total s → GW total (rrGo quantum total maxTime fuel s) := by
  intro fuel
  induction fuel with
  | zero => intro s h; exact h
  | succ n ih =>
    intro s h
    dsimp only [rrGo]
    split
    · exact h
    · rename_i hc
      push_neg at hc
      exact ih _ (rrStep_GW hq h (by omega))

/-! ### EAH: invariant preservation -/

/-- Coverage invariant for the two-queue EAH loop. -/
structure EGInv (s : EahState) : Prop where
  chain : revChain s.time s.rgantt
  queued : ∀ p ∈ (s.shortQ ++ s.longQ) ++ s.pending, 1 ≤ p.burst
  doneLe : ∀ p ∈ s.completed, p.completion ≤ s.time

theorem eahAbsorb_mem (s : EahState) (p : Process) :
    p ∈ ((eahAbsorb s).shortQ ++ (eahAbsorb s).longQ) ++ (eahAbsorb s).pending →
    p ∈ (s.shortQ ++ s.longQ) ++ s.pending := by
  intro hp
  simp only [eahAbsorb, List.mem_append] at hp ⊢
  rcases hp with ((h | h) | (h | h)) | h
  · exact Or.inl (Or.inl h)
  · exact Or.inr ((List.takeWhile_sublist _).mem (List.mem_of_mem_filter h))
  · exact Or.inl (Or.inr h)
  · exact Or.inr ((List.takeWhile_sublist _).mem (List.mem_of_mem_filter h))
  · exact Or.inr ((List.dropWhile_sublist _).mem h)

theorem EGInv_absorb {s : EahState} (h : EGInv s) : EGInv (eahAbsorb s) where
  chain := h.chain
  queued := fun p hp => h.queued p (eahAbsorb_mem s p hp)
  doneLe := h.doneLe

/-- If EAH selects nothing, both ready queues are empty. -/
theorem eahSelect_none {s : EahState} (h : eahSelect s = none) :
    s.shortQ = [] ∧ s.longQ = [] := by
  unfold eahSelect at h
  rcases hs : pySort leBurstArrPid s.shortQ with _ | ⟨p, rest⟩
  · rcases hl : pySort leArrPid s.longQ with _ | ⟨q, rest2⟩
    · constructor
      · have := (pySort_perm leBurstArrPid s.shortQ).length_eq
        rw [hs] at this
        exact List.eq_nil_of_length_eq_zero (by simpa using this.symm)
      · have := (pySort_perm leArrPid s.longQ).length_eq
        rw [hl] at this
        exact List.eq_nil_of_length_eq_zero (by simpa using this.symm)
    · rw [hs, hl] at h
      simp at h
  · rw [hs] at h
    simp at h

/-- Every EAH selection takes a queue member and leaves sublists of the
queues. -/
theorem eahSelect_some {s : EahState} {p : Process} {sq lq : List Process}
    (h : eahSelect s = some (p, sq, lq)) :
    (p ∈ s.shortQ ∨ p ∈ s.longQ) ∧
      (∀ r ∈ sq, r ∈ s.shortQ) ∧ (∀ r ∈ lq, r ∈ s.longQ) := by
  unfold eahSelect at h
  rcases hs : pySort leBurstArrPid s.shortQ with _ | ⟨p1, rest⟩
  · rcases hl : pySort leArrPid s.longQ with _ | ⟨q1, rest2⟩
    · rw [hs, hl] at h; simp at h
    · rw [hs, hl] at h
      simp only [Option.some.injEq, Prod.mk.injEq] at h
      obtain ⟨rfl, rfl, rfl⟩ := h
      refine ⟨Or.inr ?_, fun r hr => hr, fun r hr => ?_⟩
      · exact mem_pySort.mp (by rw [hl]; exact List.mem_cons_self _ _)
      · exact mem_pySort.mp (by rw [hl]; exact List.mem_cons_of_mem _ hr)
  · rw [hs] at h
    simp only [Option.some.injEq, Prod.mk.injEq] at h
    obtain ⟨rfl, rfl, rfl⟩ := h
    refine ⟨Or.inl ?_, fun r hr => ?_, fun r hr => hr⟩
    · exact mem_pySort.mp (by rw [hs]; exact List.mem_cons_self _ _)
    · exact mem_pySort.mp (by rw [hs]; exact List.mem_cons_of_mem _ hr)

/-- The EAH go-level invariant. -/
def EGW (total : Nat) (s : EahState) : Prop :=
  EGInv s ∧ (s.completed.length = total → maxCompletion s.completed = s.time)

theorem eahStep_EGW {total : Nat} {s : EahState} (h : EGW total s)
    (hlt : s.completed.length < total) : EGW total (eahStep s) := by
  obtain ⟨hinv, hwit⟩ := h
  have hinv1 := EGInv_absorb hinv
  dsimp only [eahStep]
  rcases hsel : eahSelect (eahAbsorb s) with _ | ⟨p, sq, lq⟩
  · dsimp only
    rcases hpend : (eahAbsorb s).pending with _ | ⟨q, rest⟩
    · exact ⟨hinv1, fun hl => hwit hl⟩
    · dsimp only
      obtain ⟨hsq, hlq⟩ := eahSelect_none hsel
      have htake : s.pending.takeWhile (fun p => decide (p.arrival ≤ s.time)) = [] := by
        have h1 : (eahAbsorb s).shortQ = s.shortQ ++ _ := rfl
        have h2 : (eahAbsorb s).longQ = s.longQ ++ _ := rfl
        rcases List.append_eq_nil.mp (h1 ▸ hsq) with ⟨_, hf1⟩
        rcases List.append_eq_nil.mp (h2 ▸ hlq) with ⟨_, hf2⟩
        rcases htw : s.pending.takeWhile (fun p => decide (p.arrival ≤ s.time)) with _ | ⟨x, xs⟩
        · exact htw
        · exfalso
          have hx : x ∈ s.pending.takeWhile (fun p => decide (p.arrival ≤ s.time)) := by
            rw [htw]; exact List.mem_cons_self _ _
          by_cases hc : x.classification = "short"
          · have : x ∈ List.filter (fun p => p.classification = "short")
                (s.pending.takeWhile (fun p => decide (p.arrival ≤ s.time))) :=
              List.mem_filter.mpr ⟨hx, by simpa using hc⟩
            rw [hf1] at this
            simp at this
          · have : x ∈ List.filter (fun p => ¬ p.classification = "short")
                (s.pending.takeWhile (fun p => decide (p.arrival ≤ s.time))) :=
              List.mem_filter.mpr ⟨hx, by simpa using hc⟩
            rw [hf2] at this
            simp at this
      have hq : s.time < q.arrival := head_arrival_gt htake hpend
      refine ⟨⟨?_, ?_, ?_⟩, ?_⟩
      · exact revChain_pushIdleR hinv1.chain (le_of_lt hq)
      · intro r hr
        refine hinv1.queued r ?_
        rw [hpend]
        simpa using hr
      · intro r hr
        exact le_trans (hinv1.doneLe r hr) (le_of_lt hq)
      · intro hl
        exact absurd hl (Nat.ne_of_lt hlt)
  · dsimp only
    obtain ⟨hpmem, hsq, hlq⟩ := eahSelect_some hsel
    have hpb : 1 ≤ p.burst := by
      apply hinv1.queued
      rcases hpmem with h1 | h1
      · exact List.mem_append_left _ (List.mem_append_left _ h1)
      · exact List.mem_append_left _ (List.mem_append_right _ h1)
    have htime : (eahAbsorb s).time ≤ (runProc p (eahAbsorb s).time).completion := by
      simp only [runProc]; omega
    refine ⟨⟨?_, ?_, ?_⟩, ?_⟩
    · exact revChain_cons hinv1.chain (by simp only [runProc]; omega)
    · intro r hr
      apply hinv1.queued
      rcases List.mem_append.mp hr with h1 | h1
      · rcases List.mem_append.mp h1 with h2 | h2
        · exact List.mem_append_left _ (List.mem_append_left _ (hsq r h2))
        · exact List.mem_append_left _ (List.mem_append_right _ (hlq r h2))
      · exact List.mem_append_right _ h1
    · intro r hr
      dsimp only
      rcases List.mem_append.mp hr with h1 | h1
      · exact le_trans (hinv1.doneLe r h1) htime
      · simp only [List.mem_singleton] at h1
        subst h1; simp only [runProc]; omega
    · intro hlall
      dsimp only
      apply maxCompletion_eq
      · intro r hr
        rcases List.mem_append.mp hr with h1 | h1
        · exact le_trans (hinv1.doneLe r h1) htime
        · simp only [List.mem_singleton] at h1
          exact h1 ▸ le_refl _
      · exact ⟨_, List.mem_append_right _ (List.mem_singleton_self _), rfl⟩

theorem eahGo_EGW {total : Nat} {maxTime : Int} : ∀ fuel (s : EahState),
    EGW total s → EGW total (eahGo total maxTime fuel s) := by
  intro fuel
  induction fuel with
  | zero => intro s h; exact h
  | succ n ih =>
    intro s h
    dsimp only [eahGo]
    split
    · exact h
    · rename_i hc
      push_neg at hc
      exact ih _ (eahStep_EGW h (by omega))

/-! ### FCFS: fold invariant -/

theorem fcfsGo_spec : ∀ (l : List Process) (t : Int) (rg : List Seg)
    (rtl : List TLEvent) (cs : Nat) (first : Bool) (acc : List Process),
    revChain t rg →
    (∀ p ∈ acc, p.completion ≤ t) →
    (acc ≠ [] → ∃ p ∈ acc, p.completion = t) →
    (∀ p ∈ l, 0 ≤ p.burst) →
    revChain (fcfsGo t rg rtl cs first acc l).1 (fcfsGo t rg rtl cs first acc l).2.1 ∧
    (∀ p ∈ (fcfsGo t rg rtl cs first acc l).2.2.2.2,
      p.completion ≤ (fcfsGo t rg rtl cs first acc l).1) ∧
    ((fcfsGo t rg rtl cs first acc l).2.2.2.2 ≠ [] →
      ∃ p ∈ (fcfsGo t rg rtl cs first acc l).2.2.2.2,
        p.completion = (fcfsGo t rg rtl cs first acc l).1) ∧
    ((fcfsGo t rg rtl cs first acc l).2.2.2.2 = [] →
      acc = [] ∧ (fcfsGo t rg rtl cs first acc l).1 = t) ∧
    (fcfsGo t rg rtl cs first acc l).2.2.2.2.length = acc.length + l.length := by
  intro l
  induction l with
  | nil =>
    intro t rg rtl cs first acc hchain hle hwit hb
    dsimp only [fcfsGo]
    exact ⟨hchain, hle, hwit, fun h => ⟨h, rfl⟩, by simp⟩
  | cons p rest ih =>
    intro t rg rtl cs first acc hchain hle hwit hb
    dsimp only [fcfsGo]
    have hpb : 0 ≤ p.burst := hb p (List.mem_cons_self _ _)
    have hrb : ∀ q ∈ rest, 0 ≤ q.burst := fun q hq => hb q (List.mem_cons_of_mem _ hq)
    by_cases hidle : t < p.arrival <;> simp only [hidle, if_true, if_false, reduceIte]
    · have hchain1 : revChain p.arrival (pushIdleR rg t p.arrival) :=
        revChain_pushIdleR hchain (le_of_lt hidle)
      have h := ih (runProc p p.arrival).completion
        (Seg.mk (pidLabel (runProc p p.arrival).pid) p.arrival
          (runProc p p.arrival).completion none none :: pushIdleR rg t p.arrival)
        (TLEvent.mk (runProc p p.arrival).completion (runProc p p.arrival).pid
          "completion" none :: rtl)
        (if first then cs else cs + 1) false (runProc p p.arrival :: acc)
        (revChain_cons hchain1 (by simp only [runProc]; omega))
        (by
          intro q hq
          rcases List.mem_cons.mp hq with rfl | hq2
          · simp only [runProc]; omega
          · exact le_trans (hle q hq2) (by simp only [runProc]; omega))
        (fun _ => ⟨runProc p p.arrival, List.mem_cons_self _ _, rfl⟩)
        hrb
      refine ⟨h.1, h.2.1, h.2.2.1, ?_, by
        have := h.2.2.2.2
        simp only [List.length_cons] at this ⊢
        omega⟩
      intro hnil
      exfalso
      have := h.2.2.2.2
      rw [hnil] at this
      simp only [List.length_nil, List.length_cons] at this
      omega
    · have h := ih (runProc p t).completion
        (Seg.mk (pidLabel (runProc p t).pid) t (runProc p t).completion none none :: rg)
        (TLEvent.mk (runProc p t).completion (runProc p t).pid "completion" none :: rtl)
        (if first then cs else cs + 1) false (runProc p t :: acc)
        (revChain_cons hchain (by simp only [runProc]; omega))
        (by
          intro q hq
          rcases List.mem_cons.mp hq with rfl | hq2
          · simp only [runProc]; omega
          · exact le_trans (hle q hq2) (by simp only [runProc]; omega))
        (fun _ => ⟨runProc p t, List.mem_cons_self _ _, rfl⟩)
        hrb
      refine ⟨h.1, h.2.1, h.2.2.1, ?_, by
        have := h.2.2.2.2
        simp only [List.length_cons] at this ⊢
        omega⟩
      intro hnil
      exfalso
      have := h.2.2.2.2
      rw [hnil] at this
      simp only [List.length_nil, List.length_cons] at this
      omega

/-! ### SJF non-preemptive: termination -/

/-- Termination measure of the non-preemptive loop: each iteration either
completes a process or is an idle jump that is immediately followed by an
admission. -/
def npMeasure (s : SimState) : Nat :=
  2 * (s.ready.length + s.pending.length) + (if (absorb s).ready = [] then 1 else 0)

/-- The idle flag of the termination measure is at most one. -/
theorem npFlag_le_one (s : SimState) : (if (absorb s).ready = [] then 1 else 0) ≤ 1 := by
  split <;> omega

/-- If a process with due arrival heads the pending list, the next
admission is non-empty. -/
theorem absorb_ready_ne {s : SimState} {q : Process} {rest : List Process}
    (hp : s.pending = q :: rest) (ht : q.arrival ≤ s.time) : (absorb s).ready ≠ [] := by
  simp [absorb, hp, List.takeWhile_cons, ht]

theorem sjfNpGo_complete {total : Nat} : ∀ fuel (s : SimState),
    total = s.completed.length + (s.ready.length + s.pending.length) →
    npMeasure s < fuel →
    (sjfNpGo total fuel s).completed.length = total := by
  intro fuel
  induction fuel with
  | zero => intro s hpart hm; omega
  | succ n ih =>
    intro s hpart hm
    dsimp only [sjfNpGo]
    split
    · rename_i hstop
      omega
    · rename_i hgo
      have hlen : (s.pending.takeWhile (fun p => decide (p.arrival ≤ s.time))).length +
          (s.pending.dropWhile (fun p => decide (p.arrival ≤ s.time))).length =
          s.pending.length := by
        have h0 := congrArg List.length
          (List.takeWhile_append_dropWhile (fun p => decide (p.arrival ≤ s.time)) s.pending)
        rw [List.length_append] at h0
        exact h0
      have hr1 : (absorb s).ready.length = s.ready.length +
          (s.pending.takeWhile (fun p => decide (p.arrival ≤ s.time))).length := by
        simp [absorb]
      have hp1 : (absorb s).pending.length =
          (s.pending.dropWhile (fun p => decide (p.arrival ≤ s.time))).length := rfl
      have hc1 : (absorb s).completed = s.completed := rfl
      have hmeq : npMeasure s = 2 * (s.ready.length + s.pending.length) +
          (if (absorb s).ready = [] then 1 else 0) := rfl
      apply ih
      · -- partition is preserved by one step
        dsimp only [sjfNpStep]
        rcases hready : (absorb s).ready with _ | ⟨a, as⟩
        · dsimp only
          rcases hpend : (absorb s).pending with _ | ⟨q, rest⟩
          · have e1 := congrArg List.length hready
            have e2 := congrArg List.length hpend
            simp only [List.length_nil] at e1 e2
            simp only [hc1, List.length_nil]
            omega
          · have e1 := congrArg List.length hready
            have e2 := congrArg List.length hpend
            simp only [List.length_nil, List.length_cons] at e1 e2
            simp only [hc1, List.length_nil, List.length_cons]
            omega
        · dsimp only
          rcases hsort : pySort leBurstArrPid (a :: as) with _ | ⟨p, rest⟩
          · exfalso
            have := (pySort_perm leBurstArrPid (a :: as)).length_eq
            rw [hsort] at this
            simp at this
          · dsimp only
            have hl1 : rest.length = as.length := by
              have := (pySort_perm leBurstArrPid (a :: as)).length_eq
              rw [hsort] at this
              simpa using this
            have e1 := congrArg List.length hready
            simp only [List.length_cons] at e1
            simp only [hc1, List.length_append, List.length_cons, List.length_nil]
            omega
      · -- the measure strictly decreases
        dsimp only [sjfNpStep]
        rcases hready : (absorb s).ready with _ | ⟨a, as⟩
        · dsimp only
          rcases hpend : (absorb s).pending with _ | ⟨q, rest⟩
          · -- both queues empty: the loop would already have stopped
            exfalso
            have e1 := congrArg List.length hready
            have e2 := congrArg List.length hpend
            simp only [List.length_nil] at e1 e2
            omega
          · -- idle jump: lengths unchanged, next admission is non-empty
            have e1 := congrArg List.length hready
            have e2 := congrArg List.length hpend
            simp only [List.length_nil, List.length_cons] at e1 e2
            have hmold : (if (absorb s).ready = [] then 1 else 0) = 1 := by
              rw [hready]; simp
            rw [hmeq, hmold] at hm
            simp only [npMeasure, List.length_nil, List.length_cons]
            rw [if_neg (absorb_ready_ne rfl (le_refl q.arrival))]
            omega
        · dsimp only
          rcases hsort : pySort leBurstArrPid (a :: as) with _ | ⟨p, rest⟩
          · exfalso
            have := (pySort_perm leBurstArrPid (a :: as)).length_eq
            rw [hsort] at this
            simp at this
          · dsimp only
            have hl1 : rest.length = as.length := by
              have := (pySort_perm leBurstArrPid (a :: as)).length_eq
              rw [hsort] at this
              simpa using this
            have e1 := congrArg List.length hready
            simp only [List.length_cons] at e1
            have hmold : (if (absorb s).ready = [] then 1 else 0) = 0 := by
              rw [hready]; simp
            rw [hmeq, hmold] at hm
            simp only [npMeasure, List.length_append, List.length_cons]
            refine lt_of_le_of_lt (Nat.add_le_add_left (npFlag_le_one _) _) ?_
            omega

/-! ### Assembling the coverage results -/

/-- The per-engine coverage property: the gantt tiles `[0, ganttEnd)`
contiguously without gaps or overlaps, segment durations sum to
`ganttEnd`, and whenever the run completed all `n` processes the gantt
ends exactly at the reported makespan. -/
def EngineOk (r : SchedResult) (n : Nat) : Prop :=
  chainFrom 0 r.gantt (ganttEnd r.gantt) ∧
  (r.gantt.map segDur).sum = ganttEnd r.gantt ∧
  (r.processes.length = n → ganttEnd r.gantt = r.metrics.total_completion)

theorem resultOk_of_GW {n : Nat} {s : SimState} (h : GW n s) :
    chainFrom 0 s.rgantt.reverse (ganttEnd s.rgantt.reverse) ∧
    (s.rgantt.reverse.map segDur).sum = ganttEnd s.rgantt.reverse ∧
    (s.completed.length = n → ganttEnd s.rgantt.reverse = maxCompletion s.completed) := by
  obtain ⟨hinv, hwit⟩ := h
  have hg := revChain_ganttEnd hinv.chain
  refine ⟨?_, ?_, ?_⟩
  · rw [hg]; exact revChain_reverse hinv.chain
  · have := chainFrom_sum (revChain_reverse hinv.chain)
    rw [hg]; omega
  · intro hl
    rw [hg]
    exact (hwit hl).symm

/-- Initial state of every loop engine satisfies the invariant. -/
theorem GW_init (input : List Proc) (hb : ∀ p ∈ input, 1 ≤ p.burst)
    (le : Process → Process → Bool) (n : Nat) :
    GW n ({ pending := pySort le (input.map mkProcess) } : SimState) := by
  refine ⟨⟨?_, ?_, ?_⟩, ?_⟩
  · exact rfl
  · intro p hp
    simp only [List.nil_append] at hp
    have hp2 : p ∈ input.map mkProcess := mem_pySort.mp hp
    obtain ⟨x, hx, rfl⟩ := List.mem_map.mp hp2
    have := hb x hx
    exact ⟨this, this⟩
  · intro p hp
    simp at hp
  · intro _
    simp [maxCompletion]

/-- Initial EAH state satisfies the invariant. -/
theorem EGW_init (input : List Proc) (hb : ∀ p ∈ input, 1 ≤ p.burst)
    (th : ℚ) (n : Nat) :
    EGW n ({ pending := pySort leArr (classify_tasks th (input.map mkProcess)) } :
      EahState) := by
  refine ⟨⟨?_, ?_, ?_⟩, ?_⟩
  · exact rfl
  · intro p hp
    simp only [List.append_nil, List.nil_append] at hp
    have hp2 : p ∈ classify_tasks th (input.map mkProcess) := mem_pySort.mp hp
    obtain ⟨y, hy, rfl⟩ := List.mem_map.mp hp2
    obtain ⟨x, hx, rfl⟩ := List.mem_map.mp hy
    exact hb x hx
  · intro p hp
    simp at hp
  · intro _
    simp [maxCompletion]

theorem sjf_non_preemptive_ok (input : List Proc) (hb : ∀ p ∈ input, 1 ≤ p.burst) :
    EngineOk (sjf_non_preemptive input) input.length ∧
    (sjf_non_preemptive input).processes.length = input.length := by
  have base := GW_init input hb leArr (input.map mkProcess).length
  have h := sjfNpGo_GW (2 * (input.map mkProcess).length + 2) _ base
  have hcomp := @sjfNpGo_complete (input.map mkProcess).length
    (2 * (input.map mkProcess).length + 2)
    ({ pending := pySort leArr (input.map mkProcess) } : SimState)
    (by
      simp only [List.length_nil]
      have := (pySort_perm leArr (input.map mkProcess)).length_eq
      omega)
    (by
      have hf := npFlag_le_one ({ pending := pySort leArr (input.map mkProcess) } : SimState)
      have := (pySort_perm leArr (input.map mkProcess)).length_eq
      simp only [npMeasure, List.length_nil]
      omega)
  have hres := resultOk_of_GW h
  have hlen : (input.map mkProcess).length = input.length := by simp
  dsimp only [sjf_non_preemptive]
  constructor
  · refine ⟨hres.1, hres.2.1, ?_⟩
    intro hplen
    simp only [List.length_map] at hplen
    have := hres.2.2 (by omega)
    simpa [calculate_metrics] using this
  · simp only [List.length_map] at hcomp ⊢
    omega

theorem sjf_preemptive_ok (input : List Proc) (hb : ∀ p ∈ input, 1 ≤ p.burst) :
    EngineOk (sjf_preemptive input) input.length := by
  have base := GW_init input hb leArr (input.map mkProcess).length
  have h := @srtfGo_GW _ (maxArrivalBurst (input.map mkProcess) + 100)
    (2 * ((maxArrivalBurst (input.map mkProcess) + 100).toNat +
      (input.map mkProcess).length) + 4) _ base
  have hres := resultOk_of_GW h
  dsimp only [sjf_preemptive]
  refine ⟨hres.1, hres.2.1, ?_⟩
  intro hplen
  simp only [List.length_map] at hplen
  have := hres.2.2 (by simpa using hplen)
  simpa [calculate_metrics] using this

theorem round_robin_ok (input : List Proc) (hb : ∀ p ∈ input, 1 ≤ p.burst)
    (quantum : Int) (hq : 0 ≤ quantum) :
    EngineOk (round_robin input quantum) input.length := by
  have base := GW_init input hb leArr (input.map mkProcess).length
  have h := @rrGo_GW _ hq _ (maxArrivalBurst (input.map mkProcess) * 10)
    (2 * ((maxArrivalBurst (input.map mkProcess) * 10).toNat +
      (input.map mkProcess).length) + 4) _ base
  have hres := resultOk_of_GW h
  dsimp only [round_robin]
  refine ⟨hres.1, hres.2.1, ?_⟩
  intro hplen
  simp only [List.length_map] at hplen
  have := hres.2.2 (by simpa using hplen)
  simpa [calculate_metrics] using this

theorem priority_scheduling_ok (input : List Proc) (hb : ∀ p ∈ input, 1 ≤ p.burst)
    (preemptive : Bool) :
    EngineOk (priority_scheduling input preemptive) input.length := by
  have base := GW_init input hb leArr (input.map mkProcess).length
  dsimp only [priority_scheduling]
  cases preemptive
  · simp only [Bool.false_eq_true, if_false, reduceIte]
    have h := @prioNpGo_GW _ (maxArrivalBurst (input.map mkProcess) + 100)
      (2 * ((maxArrivalBurst (input.map mkProcess) + 100).toNat +
        (input.map mkProcess).length) + 4) _ base
    have hres := resultOk_of_GW h
    refine ⟨hres.1, hres.2.1, ?_⟩
    intro hplen
    simp only [List.length_map] at hplen
    have := hres.2.2 (by simpa using hplen)
    simpa [calculate_metrics] using this
  · simp only [if_true, reduceIte]
    have h := @prioPGo_GW _ (maxArrivalBurst (input.map mkProcess) + 100)
      (2 * ((maxArrivalBurst (input.map mkProcess) + 100).toNat +
        (input.map mkProcess).length) + 4) _ base
    have hres := resultOk_of_GW h
    refine ⟨hres.1, hres.2.1, ?_⟩
    intro hplen
    simp only [List.length_map] at hplen
    have := hres.2.2 (by simpa using hplen)
    simpa [calculate_metrics] using this

theorem energy_aware_hybrid_ok (input : List Proc) (hb : ∀ p ∈ input, 1 ≤ p.burst)
    (th : Option ℚ) :
    EngineOk (energy_aware_hybrid input th) input.length := by
  have base := EGW_init input hb (eahThreshold (input.map mkProcess) th)
    (classify_tasks (eahThreshold (input.map mkProcess) th) (input.map mkProcess)).length
  have h := @eahGo_EGW _
    (maxArrivalBurst
      (classify_tasks (eahThreshold (input.map mkProcess) th) (input.map mkProcess)) + 100)
    (2 * ((maxArrivalBurst
      (classify_tasks (eahThreshold (input.map mkProcess) th) (input.map mkProcess)) + 100).toNat +
      (classify_tasks (eahThreshold (input.map mkProcess) th) (input.map mkProcess)).length) + 4)
    _ base
  obtain ⟨hinv, hwit⟩ := h
  have hg := revChain_ganttEnd hinv.chain
  dsimp only [energy_aware_hybrid]
  refine ⟨?_, ?_, ?_⟩
  · dsimp only
    rw [hg]; exact revChain_reverse hinv.chain
  · dsimp only
    have := chainFrom_sum (revChain_reverse hinv.chain)
    rw [hg]; omega
  · dsimp only
    intro hplen
    simp only [List.length_map] at hplen
    have hlc : (classify_tasks (eahThreshold (input.map mkProcess) th)
        (input.map mkProcess)).length = input.length := by
      simp [classify_tasks]
    have := hwit (by omega)
    rw [hg]
    simpa [calculate_metrics] using this.symm

theorem fcfs_ok (input : List Proc) (hb : ∀ p ∈ input, 1 ≤ p.burst) :
    EngineOk (fcfs input) input.length ∧
    (fcfs input).processes.length = input.length := by
  have hspec := fcfsGo_spec (pySort leArrPid (input.map mkProcess)) 0 [] [] 0 true []
    rfl (by simp) (by simp) (by
      intro p hp
      have hp2 : p ∈ input.map mkProcess := mem_pySort.mp hp
      obtain ⟨x, hx, rfl⟩ := List.mem_map.mp hp2
      have := hb x hx
      simp only [mkProcess]
      omega)
  obtain ⟨hchain, hle, hwitne, hwite, hlen⟩ := hspec
  have hg := revChain_ganttEnd hchain
  have hlen2 : (pySort leArrPid (input.map mkProcess)).length = input.length := by
    have := (pySort_perm leArrPid (input.map mkProcess)).length_eq
    simpa using this
  dsimp only [fcfs]
  refine ⟨⟨?_, ?_, ?_⟩, ?_⟩
  · dsimp only
    rw [hg]; exact revChain_reverse hchain
  · dsimp only
    have := chainFrom_sum (revChain_reverse hchain)
    rw [hg]; omega
  · dsimp only
    intro hpl
    rw [hg]
    simp only [calculate_metrics]
    symm
    by_cases hacc : (fcfsGo 0 [] [] 0 true [] (pySort leArrPid (input.map mkProcess))).2.2.2.2 = []
    · obtain ⟨_, ht⟩ := hwite hacc
      rw [hacc, ht]
      simp [maxCompletion]
    · obtain ⟨p, hp, hpc⟩ := hwitne hacc
      apply maxCompletion_eq
      · intro r hr
        exact hle r (List.mem_reverse.mp hr)
      · exact ⟨p, List.mem_reverse.mpr hp, hpc⟩
  · dsimp only
    simp only [List.length_map, List.length_reverse]
    simp only [List.length_nil] at hlen
    omega

/-! ## Claim C4 -/

instance chainFromDec : ∀ (t : Int) (g : List Seg) (T : Int), Decidable (chainFrom t g T)
  | _, [], _ => by unfold chainFrom; infer_instance
  | t, s :: rest, T => by
    unfold chainFrom
    have := chainFromDec s.stop rest T
    exact instDecidableAnd

/-- C4 (amended): for every input whose bursts are positive (and a
positive Round Robin quantum), each single-core engine produces a gantt
whose segments are contiguous, non-overlapping and IDLE-filled, tiling
`[0, ganttEnd)` with durations summing to `ganttEnd`; whenever the run
completes every process — unconditionally for FCFS and SJF non-preemptive,
and under the completion hypothesis for the time-bounded engines —
`ganttEnd` equals the reported makespan, so segment durations sum to the
makespan.  (The original claim also asserted this for each per-core gantt
of the multi-core scheduler; that part is refuted by
`c4_multicore_counterexample`: multi-core per-core gantts record only
busy segments, with no IDLE filling.) -/
theorem c4_single_core_gantt_coverage (input : List Proc)
    (hb : ∀ p ∈ input, 1 ≤ p.burst) (quantum : Int) (hq : 1 ≤ quantum)
    (preemptive : Bool) (th : Option ℚ) :
    (EngineOk (fcfs input) input.length ∧
      (fcfs input).processes.length = input.length) ∧
    (EngineOk (sjf_non_preemptive input) input.length ∧
      (sjf_non_preemptive input).processes.length = input.length) ∧
    EngineOk (sjf_preemptive input) input.length ∧
    EngineOk (round_robin input quantum) input.length ∧
    EngineOk (priority_scheduling input preemptive) input.length ∧
    EngineOk (energy_aware_hybrid input th) input.length :=
  ⟨fcfs_ok input hb, sjf_non_preemptive_ok input hb, sjf_preemptive_ok input hb,
   round_robin_ok input hb quantum (by omega), priority_scheduling_ok input hb preemptive,
   energy_aware_hybrid_ok input hb th⟩

/-- C4 counterexample: on one core running FCFS with processes
`{pid 1, arrival 0, burst 2}` and `{pid 2, arrival 5, burst 2}`, the
multi-core per-core gantt is `[P1: 0-2, P2: 5-7]` — the idle interval
`[2, 5)` is not filled with an IDLE segment, the segments do not tile
`[0, makespan)`, and their durations sum to 4 while the makespan is 7. -/
theorem c4_multicore_counterexample :
    (multicore_schedule [⟨1, 0, 2, 0⟩, ⟨2, 5, 2, 0⟩] 1 "fcfs" 2 none).per_core_gantt =
      [[⟨"P1", 0, 2, some 0, none⟩, ⟨"P2", 5, 7, some 0, none⟩]] ∧
    (multicore_schedule [⟨1, 0, 2, 0⟩, ⟨2, 5, 2, 0⟩] 1 "fcfs" 2
      none).metrics.total_completion = 7 ∧
    ¬ chainFrom 0 [⟨"P1", 0, 2, some 0, none⟩, ⟨"P2", 5, 7, some 0, none⟩] 7 ∧
    (([⟨"P1", 0, 2, some 0, none⟩, ⟨"P2", 5, 7, some 0, none⟩] : List Seg).map
      segDur).sum = 4 := by
  refine ⟨by decide, by decide, by decide, by decide⟩

/-- C4 witness: the coverage theorem instantiated at a concrete valid
input. -/
theorem c4_witness :
    (∀ p ∈ [(⟨1, 0, 2, 0⟩ : Proc), ⟨2, 5, 2, 0⟩], 1 ≤ p.burst) ∧
    (1 : Int) ≤ 2 ∧
    EngineOk (sjf_preemptive [⟨1, 0, 2, 0⟩, ⟨2, 5, 2, 0⟩]) 2 :=
  ⟨by decide, by decide,
    (c4_single_core_gantt_coverage [⟨1, 0, 2, 0⟩, ⟨2, 5, 2, 0⟩] (by decide) 2
      (by decide) true none).2.2.1⟩

/-! ## Claim C1 -/

/-- Whether a request outcome is a success response. -/
def exceptIsOk : Except String SchedResult → Bool
  | .ok _ => true
  | .error _ => false

/-- C1 counterexample: a process descriptor with `burst = 0` — violating
the `burst > 0` constraint — passes validation and is handed to the
engine, so the request succeeds instead of failing with an invalid-input
error as the claim requires. -/
theorem c1_counterexample :
    exceptIsOk (run_scheduler "fcfs"
      [{ pid := some 1, arrival := some 0, burst := some 0 }] 2 none false) = true := by
  decide

/-- C1 (amended): the run endpoint rejects a request with a
caller-visible error, before any simulation state is created, exactly
when the process collection is empty or some descriptor is missing one of
the required keys `pid`, `arrival`, `burst` (or the algorithm name is
unknown); it performs no validation of `arrival ≥ 0`, `burst > 0` or pid
uniqueness, and any non-empty request whose descriptors carry the three
keys reaches the selected engine. -/
theorem c1_validation (alg : String) (processes : List RawProc)
    (q : Int) (th : Option ℚ) (pre : Bool) :
    ((processes = [] ∨ ∃ p ∈ processes, p.pid = none ∨ p.arrival = none ∨ p.burst = none) →
      exceptIsOk (run_scheduler alg processes q th pre) = false) ∧
    (processes ≠ [] →
      (∀ p ∈ processes, p.pid ≠ none ∧ p.arrival ≠ none ∧ p.burst ≠ none) →
      alg = "fcfs" ∨ alg = "sjf" ∨ alg = "sjf_non_preemptive" ∨ alg = "sjf_preemptive" ∨
        alg = "srtf" ∨ alg = "round_robin" ∨ alg = "rr" ∨ alg = "priority" ∨
        alg = "eah" ∨ alg = "energy_aware_hybrid" →
      exceptIsOk (run_scheduler alg processes q th pre) = true) := by
  constructor
  · intro hbad
    unfold run_scheduler
    rcases hbad with rfl | ⟨p, hp, hmiss⟩
    · simp [exceptIsOk]
    · have hne : processes ≠ [] := by
        intro h; subst h; simp at hp
      rw [if_neg hne]
      have hany : processes.any
          (fun p => decide (p.pid = none ∨ p.arrival = none ∨ p.burst = none)) = true := by
        rw [List.any_eq_true]
        exact ⟨p, hp, by simpa using hmiss⟩
      rw [if_pos (by simpa using hany)]
      simp [exceptIsOk]
  · intro hne hall halg
    unfold run_scheduler
    rw [if_neg hne]
    have hany : processes.any
        (fun p => decide (p.pid = none ∨ p.arrival = none ∨ p.burst = none)) = false := by
      rw [List.any_eq_false]
      intro p hp
      have := hall p hp
      simp only [decide_eq_true_eq]
      push_neg
      exact ⟨this.1, this.2.1, this.2.2⟩
    rw [if_neg (by rw [hany]; simp)]
    rcases halg with rfl | rfl | rfl | rfl | rfl | rfl | rfl | rfl | rfl | rfl <;>
      simp [exceptIsOk]

/-- C1 witness: the amended validation theorem instantiated at a
complete descriptor and at an empty request. -/
theorem c1_witness :
    exceptIsOk (run_scheduler "fcfs" [] 2 none false) = false ∧
    exceptIsOk (run_scheduler "sjf"
      [{ pid := some 1, arrival := some 0, burst := some 4 }] 2 none false) = true :=
  ⟨(c1_validation "fcfs" [] 2 none false).1 (Or.inl rfl),
   (c1_validation "sjf" [{ pid := some 1, arrival := some 0, burst := some 4 }] 2 none
      false).2 (by decide) (by decide) (Or.inr (Or.inl rfl))⟩

/-! ## Claim C2 -/

set_option maxRecDepth 8000 in
/-- C2 (code bug): on the fully valid input `{pid 1, arrival 0,
burst 101}`, `{pid 2, arrival 0, burst 101}` — which passes validation —
the SRTF bound `max_time = max(arrival+burst) + 100 = 201` is reached
before the 202 units of work finish.  The engine then exits its loop and
returns an ordinary result containing only 1 of the 2 processes, with the
gantt running to the bound: a silent partial result, not a signalled
simulation fault; and the bound is reachable for validated input, contrary
to the claim. -/
theorem c2_bound_silent_partial_result :
    maxArrivalBurst ([⟨1, 0, 101, 0⟩, ⟨2, 0, 101, 0⟩].map mkProcess) + 100 = 201 ∧
    (sjf_preemptive [⟨1, 0, 101, 0⟩, ⟨2, 0, 101, 0⟩]).processes.length = 1 ∧
    ganttEnd (sjf_preemptive [⟨1, 0, 101, 0⟩, ⟨2, 0, 101, 0⟩]).gantt = 201 ∧
    (sjf_preemptive [⟨1, 0, 101, 0⟩, ⟨2, 0, 101, 0⟩]).metrics.total_completion = 101 := by
  refine ⟨by decide, by decide, by decide, by decide⟩

/-! ## Claim C3 -/

/-- Modelled from the spec: `avg_response_time` is the mean over
completed processes of `(first_execution_time − arrival)`, where the
first execution time comes from the process's own recorded `start_time`;
the argument is the list of `(start_time, arrival)` pairs. -/
def spec_avg_response_time (pairs : List (Int × Int)) : ℚ :=
  (((pairs.map (fun x => x.1 - x.2)).sum : ℤ) : ℚ) / (pairs.length : ℚ)

/-- C3 (code bug): on FCFS input `{pid 1, arrival 0, burst 5}`,
`{pid 2, arrival 0, burst 3}`, process 2 first executes at time 5 (its
gantt segment starts at 5, and the engine records `start_time = 5`), so
the spec's `avg_response_time` is `(0 + 5)/2 = 5/2`.  The code instead
looks segments up by a `pid` key they do not carry, always falls back to
the process's arrival, and reports `avg_response_time = 0`. -/
theorem c3_response_time_defect :
    (calculate_advanced_metrics (fcfs [⟨1, 0, 5, 0⟩, ⟨2, 0, 3, 0⟩])
      [⟨1, 0, 5, 0⟩, ⟨2, 0, 3, 0⟩]).avg_response_time = 0 ∧
    ((fcfs [⟨1, 0, 5, 0⟩, ⟨2, 0, 3, 0⟩]).gantt.filter
      (fun s => s.process = "P2")).head?.map Seg.start = some 5 ∧
    spec_avg_response_time [(0, 0), (5, 0)] = 5 / 2 ∧
    (5 / 2 : ℚ) ≠ 0 := by
  have hg : (fcfs [⟨1, 0, 5, 0⟩, ⟨2, 0, 3, 0⟩]).gantt =
      [⟨"P1", 0, 5, none, none⟩, ⟨"P2", 5, 8, none, none⟩] := by decide
  have hp : (fcfs [⟨1, 0, 5, 0⟩, ⟨2, 0, 3, 0⟩]).processes =
      [{ pid := 1, arrival := 0, burst := 5, completion := 5, turnaround := 5, waiting := 0 },
       { pid := 2, arrival := 0, burst := 3, completion := 8, turnaround := 8, waiting := 5 }] := by
    decide
  have hm : (fcfs [⟨1, 0, 5, 0⟩, ⟨2, 0, 3, 0⟩]).metrics.total_completion = 8 := by decide
  refine ⟨?_, ?_, ?_, ?_⟩
  · simp only [calculate_advanced_metrics, hg, hp, hm]
    rw [if_neg (by simp)]
    have hfind : ∀ x : Int,
        List.find? (fun g => decide (segPidKey g = some x))
          [({ process := "P1", start := 0, stop := 5, core := none,
              classification := none } : Seg),
           { process := "P2", start := 5, stop := 8, core := none,
             classification := none }] = none :=
      fun x => rfl
    simp only [hfind, Option.map_none', Option.getD_none, List.map]
    norm_num [round2]
  · rw [hg]
    decide
  · norm_num [spec_avg_response_time]
  · norm_num

/-! ## Claim C9 -/

/-- Splitting a sum of pointwise-if values along the condition. -/
theorem sum_map_ite_split (l : List Nat) (p : Nat → Bool) (f : Nat → ℚ) (c : ℚ) :
    (l.map (fun t => if p t then f t else c)).sum =
      ((l.filter (fun t => p t)).map f).sum +
        ((l.filter (fun t => ¬ p t)).map (fun _ => c)).sum := by
  induction l with
  | nil => simp
  | cons a l ih =>
    by_cases h : p a = true
    · simp [List.filter_cons, h, ih]
      ring
    · simp [List.filter_cons, h, ih]
      ring

/-- C9 (confirmed): for a non-empty gantt, the energy estimator charges
`context_switch_energy = context_switches × 0.5`, its `total_energy` is
exactly `busy_energy + idle_energy + context_switch_energy` (so the
context-switch amount is included), and `avg_power` is
`total_energy / makespan` (reported under the spec's 2-decimal rounding
convention), or `0` when the makespan is not positive; for the empty
gantt every energy field is `0`, both timelines are empty, and no
division is performed (the early return carries no `avg_power` value at
all). -/
theorem c9_energy_accounting (g : List Seg) (c : Int) (h : g ≠ []) :
    (calculate_dvfs_energy g c).context_switch_energy = (c : ℚ) * (1 / 2) ∧
    (calculate_dvfs_energy g c).total_energy =
      (calculate_dvfs_energy g c).busy_energy + (calculate_dvfs_energy g c).idle_energy +
        (calculate_dvfs_energy g c).context_switch_energy ∧
    (0 < ganttMaxTime g → (calculate_dvfs_energy g c).avg_power =
      some (round2 ((calculate_dvfs_energy g c).total_energy / (ganttMaxTime g : ℚ)))) ∧
    (ganttMaxTime g ≤ 0 → (calculate_dvfs_energy g c).avg_power = some 0) ∧
    calculate_dvfs_energy [] c =
      { total_energy := 0
        busy_energy := 0
        idle_energy := 0
        context_switch_energy := 0
        power_timeline := []
        frequency_timeline := []
        avg_power := none } := by
  refine ⟨?_, ?_, ?_, ?_, ?_⟩
  · simp only [calculate_dvfs_energy, if_neg h]
  · simp only [calculate_dvfs_energy, if_neg h, unitPower]
    rw [sum_map_ite_split]
  · intro hpos
    simp only [calculate_dvfs_energy, if_neg h]
    rw [if_pos hpos]
  · intro hle
    simp only [calculate_dvfs_energy, if_neg h]
    rw [if_neg (by omega)]
  · rfl

/-- Concrete instantiation of `c9_energy_accounting` on the one-segment
gantt `[P1 : 0→2]` with 3 context switches. -/
theorem c9_witness :
    (calculate_dvfs_energy [⟨"P1", 0, 2, none, none⟩] 3).context_switch_energy =
      ((3 : Int) : ℚ) * (1 / 2) ∧
    (calculate_dvfs_energy [⟨"P1", 0, 2, none, none⟩] 3).avg_power =
      some (round2 ((calculate_dvfs_energy [⟨"P1", 0, 2, none, none⟩] 3).total_energy /
        (ganttMaxTime [⟨"P1", 0, 2, none, none⟩] : ℚ))) :=
  ⟨(c9_energy_accounting [⟨"P1", 0, 2, none, none⟩] 3 (by decide)).1,
   (c9_energy_accounting [⟨"P1", 0, 2, none, none⟩] 3 (by decide)).2.2.1 (by decide)⟩

/-! ## Claim C7 -/

/-- If a hysteresis update changes the committed state, the pending
counter had already reached the threshold and the update commits the
target with the counter reset. -/
theorem hystStep_change (cur tgt : String) (dur : Nat)
    (h : (hystStep cur dur tgt).1 ≠ cur) :
    1 ≤ dur ∧ hystStep cur dur tgt = (tgt, 0) := by
  unfold hystStep at h ⊢
  by_cases hc : 1 ≤ dur ∨ cur = tgt
  · rw [if_pos hc] at h ⊢
    rcases hc with h1 | h1
    · exact ⟨h1, rfl⟩
    · exact absurd h1.symm h
  · rw [if_neg hc] at h
    exact absurd rfl h

/-- C7 (confirmed): the hysteresis machine starts in `MED` with a zero
counter; agreement with the target keeps the state and resets the
counter; a first disagreement keeps the state and arms the counter; an
armed counter commits the (current) target with the counter reset; hence
every committed change at unit `t` was preceded by exactly one unit of
disagreement at `t − 1` during which the old state was held (the
one-tick delay); and for a gantt busy on units `0..3` the committed
state is already `HIGH` at unit 1 ≤ window_size + hysteresis = 4. -/
theorem c7_hysteresis_machine (g : List Seg) :
    dvfsMachine g 0 = ("MED", 0) ∧
    (∀ cur dur, hystStep cur dur cur = (cur, 0)) ∧
    (∀ cur tgt, cur ≠ tgt → hystStep cur 0 tgt = (cur, 1)) ∧
    (∀ cur dur tgt, 1 ≤ dur → hystStep cur dur tgt = (tgt, 0)) ∧
    (∀ t, (dvfsMachine g (t + 1)).1 ≠ (dvfsMachine g t).1 →
      ∃ t₀, t = t₀ + 1 ∧ (dvfsMachine g t).1 = (dvfsMachine g t₀).1 ∧
        targetState g t₀ ≠ (dvfsMachine g t₀).1 ∧ (dvfsMachine g t).2 = 1) ∧
    ((∀ t, t < 4 → isBusyUnit g t = true) → dvfsCommitted g 1 = "HIGH") := by
  refine ⟨rfl, ?_, ?_, ?_, ?_, ?_⟩
  · intro cur dur
    simp [hystStep]
  · intro cur tgt h
    rw [hystStep, if_neg]
    push_neg
    exact ⟨by omega, h⟩
  · intro cur dur tgt h
    rw [hystStep, if_pos (Or.inl h)]
  · intro t hne
    cases t with
    | zero =>
      exfalso
      have h := hystStep_change _ _ _ hne
      exact Nat.not_succ_le_zero 0 h.1
    | succ t₀ =>
      have h := hystStep_change _ _ _ hne
      by_cases hc : 1 ≤ (dvfsMachine g t₀).2 ∨ (dvfsMachine g t₀).1 = targetState g t₀
      · exfalso
        have hm : dvfsMachine g (t₀ + 1) =
            (targetState g t₀, 0) := by
          show hystStep (dvfsMachine g t₀).1 (dvfsMachine g t₀).2 (targetState g t₀) = _
          rw [hystStep, if_pos hc]
        rw [hm] at h
        omega
      · have hm : dvfsMachine g (t₀ + 1) =
            ((dvfsMachine g t₀).1, (dvfsMachine g t₀).2 + 1) := by
          show hystStep (dvfsMachine g t₀).1 (dvfsMachine g t₀).2 (targetState g t₀) = _
          rw [hystStep, if_neg hc]
        push_neg at hc
        refine ⟨t₀, rfl, by rw [hm], fun he => hc.2 he.symm, ?_⟩
        rw [hm]
        dsimp only
        omega
  · intro hb
    have hb0 := hb 0 (by omega)
    have hb1 := hb 1 (by omega)
    have hw0 : windowUtil g 0 = 1 := by
      norm_num [windowUtil, List.range', List.filter, hb0]
    have hw1 : windowUtil g 1 = 1 := by
      norm_num [windowUtil, List.range', List.filter, hb0, hb1]
    have ht0 : targetState g 0 = "HIGH" := by
      rw [targetState, hw0, if_pos (by norm_num)]
    have ht1 : targetState g 1 = "HIGH" := by
      rw [targetState, hw1, if_pos (by norm_num)]
    have hm1 : dvfsMachine g 1 = ("MED", 1) := by
      show hystStep (dvfsMachine g 0).1 (dvfsMachine g 0).2 (targetState g 0) = _
      rw [show dvfsMachine g 0 = ("MED", 0) from rfl, ht0]
      rw [hystStep, if_neg (by decide)]
    show (hystStep (dvfsMachine g 1).1 (dvfsMachine g 1).2 (targetState g 1)).1 = "HIGH"
    rw [hm1, ht1, hystStep, if_pos (Or.inl (by omega))]

/-- Concrete instantiation of `c7_hysteresis_machine`: the armed-counter
commit and first-disagreement steps at `MED → HIGH`, and the busy gantt
`[P1 : 0→4]` committing `HIGH` at unit 1. -/
theorem c7_witness :
    hystStep "MED" 0 "HIGH" = ("MED", 1) ∧
    hystStep "MED" 1 "HIGH" = ("HIGH", 0) ∧
    dvfsCommitted [⟨"P1", 0, 4, none, none⟩] 1 = "HIGH" :=
  ⟨(c7_hysteresis_machine [⟨"P1", 0, 4, none, none⟩]).2.2.1 "MED" "HIGH" (by decide),
   (c7_hysteresis_machine [⟨"P1", 0, 4, none, none⟩]).2.2.2.1 "MED" 1 "HIGH" (by decide),
   (c7_hysteresis_machine [⟨"P1", 0, 4, none, none⟩]).2.2.2.2.2 (by decide)⟩

/-! ## Claim C5 -/

/-- On a list sorted by arrival, taking while `arrival ≤ b` collects
exactly the elements with `arrival ≤ b`. -/
theorem takeWhile_eq_filter_arr (b : Int) :
    ∀ (l : List Process), l.Pairwise (fun x y => x.arrival ≤ y.arrival) →
      l.takeWhile (fun q => decide (q.arrival ≤ b)) =
        l.filter (fun q => decide (q.arrival ≤ b)) := by
  intro l hl
  induction l with
  | nil => rfl
  | cons a l ih =>
    rcases List.pairwise_cons.mp hl with ⟨ha, hl1⟩
    by_cases h : a.arrival ≤ b
    · simp [List.takeWhile_cons, List.filter_cons, h, ih hl1]
    · have hd : (decide (a.arrival ≤ b)) = false := by simpa using h
      rw [List.takeWhile_cons, List.filter_cons, hd]
      simp only [Bool.false_eq_true, if_false]
      symm
      rw [List.filter_eq_nil_iff]
      intro x hx
      simp only [decide_eq_true_eq]
      have := ha x hx
      omega

/-- C5 (confirmed): a Round-Robin dispatch of the FIFO head `p` runs it
for exactly `min(quantum, p.remaining)` units (the clock advances by
that amount and the recorded segment spans it), and if work remains the
new ready queue is the old tail, then *every* pending process whose
arrival is ≤ the slice's end time (in arrival order), and only then the
preempted process at the tail. -/
theorem c5_rr_dispatch (quantum : Int) (s : SimState) (p : Process) (rest : List Process)
    (hready : (absorb s).ready = p :: rest)
    (hsorted : (absorb s).pending.Pairwise (fun a b => a.arrival ≤ b.arrival)) :
    (rrStep quantum s).time = (absorb s).time + min quantum p.remaining ∧
    (rrStep quantum s).rgantt.head? = some
      (Seg.mk (pidLabel p.pid) (absorb s).time
        ((absorb s).time + min quantum p.remaining) none none) ∧
    (p.remaining - min quantum p.remaining ≠ 0 →
      ∃ p', (rrStep quantum s).ready =
          (rest ++ (absorb s).pending.filter
            (fun q => decide (q.arrival ≤ (absorb s).time + min quantum p.remaining))) ++ [p'] ∧
        p'.pid = p.pid ∧ p'.remaining = p.remaining - min quantum p.remaining) := by
  have htw := takeWhile_eq_filter_arr ((absorb s).time + min quantum p.remaining)
    (absorb s).pending hsorted
  dsimp only [rrStep]
  rw [hready]
  dsimp only
  by_cases hst : p.start_time = -1
  · rw [if_pos hst]
    by_cases hrem0 : p.remaining - min quantum p.remaining = 0
    · rw [if_pos hrem0]
      exact ⟨rfl, rfl, fun hrem => absurd hrem0 hrem⟩
    · rw [if_neg hrem0]
      refine ⟨rfl, rfl, fun hrem => ⟨{ p with
        start_time := (absorb s).time
        remaining := p.remaining - min quantum p.remaining }, ?_, rfl, rfl⟩⟩
      rw [htw]
  · rw [if_neg hst]
    by_cases hrem0 : p.remaining - min quantum p.remaining = 0
    · rw [if_pos hrem0]
      exact ⟨rfl, rfl, fun hrem => absurd hrem0 hrem⟩
    · rw [if_neg hrem0]
      refine ⟨rfl, rfl, fun hrem => ⟨{ p with
        remaining := p.remaining - min quantum p.remaining }, ?_, rfl, rfl⟩⟩
      rw [htw]

/-- Concrete instantiation of `c5_rr_dispatch`: quantum 2 on
`{pid 1, arrival 0, burst 5}`, `{pid 2, arrival 1, burst 3}` — the slice
runs 2 units and pid 2 (arrived at 1 ≤ 2) is enqueued before pid 1's
requeue. -/
theorem c5_witness :
    (rrStep 2 { pending := [mkProcess ⟨1, 0, 5, 0⟩, mkProcess ⟨2, 1, 3, 0⟩] }).time =
      (absorb { pending := [mkProcess ⟨1, 0, 5, 0⟩, mkProcess ⟨2, 1, 3, 0⟩] }).time +
        min 2 (mkProcess ⟨1, 0, 5, 0⟩).remaining ∧
    (∃ p', (rrStep 2 { pending := [mkProcess ⟨1, 0, 5, 0⟩, mkProcess ⟨2, 1, 3, 0⟩] }).ready =
        ([] ++ (absorb { pending := [mkProcess ⟨1, 0, 5, 0⟩,
            mkProcess ⟨2, 1, 3, 0⟩] }).pending.filter
          (fun q => decide (q.arrival ≤
            (absorb { pending := [mkProcess ⟨1, 0, 5, 0⟩, mkProcess ⟨2, 1, 3, 0⟩] }).time +
              min 2 (mkProcess ⟨1, 0, 5, 0⟩).remaining))) ++ [p'] ∧
      p'.pid = (mkProcess ⟨1, 0, 5, 0⟩).pid ∧
      p'.remaining = (mkProcess ⟨1, 0, 5, 0⟩).remaining -
        min 2 (mkProcess ⟨1, 0, 5, 0⟩).remaining) :=
  ⟨(c5_rr_dispatch 2 { pending := [mkProcess ⟨1, 0, 5, 0⟩, mkProcess ⟨2, 1, 3, 0⟩] }
      (mkProcess ⟨1, 0, 5, 0⟩) [] (by decide) (by decide)).1,
   (c5_rr_dispatch 2 { pending := [mkProcess ⟨1, 0, 5, 0⟩, mkProcess ⟨2, 1, 3, 0⟩] }
      (mkProcess ⟨1, 0, 5, 0⟩) [] (by decide) (by decide)).2.2 (by decide)⟩

/-! ## Claim C8 -/

/-- Classification consistency: every process anywhere in an EAH state
carries the classification its burst dictates. -/
def EahClassOk (th : ℚ) (s : EahState) : Prop :=
  ∀ q : Process, q ∈ (((s.shortQ ++ s.longQ) ++ s.pending) ++ s.completed) →
    q.classification = classifyStr th q.burst

theorem eahAbsorb_classOk {th : ℚ} {s : EahState} (h : EahClassOk th s) :
    EahClassOk th (eahAbsorb s) := by
  intro q hq
  rcases List.mem_append.mp hq with h1 | h1
  · exact h q (List.mem_append_left _ (eahAbsorb_mem s q h1))
  · exact h q (List.mem_append_right _ h1)

theorem eahStep_classOk {th : ℚ} {s : EahState} (h : EahClassOk th s) :
    EahClassOk th (eahStep s) := by
  have h1 := eahAbsorb_classOk h
  dsimp only [eahStep]
  rcases hsel : eahSelect (eahAbsorb s) with _ | ⟨p, sq, lq⟩
  · dsimp only
    rcases hpend : (eahAbsorb s).pending with _ | ⟨q0, rest⟩
    · exact h1
    · dsimp only
      intro q hq
      dsimp only at hq
      rw [← hpend] at hq
      exact h1 q hq
  · dsimp only
    obtain ⟨hpmem, hsq, hlq⟩ := eahSelect_some hsel
    intro q hq
    simp only [List.mem_append, List.mem_singleton] at hq
    rcases hq with (((h2 | h2) | h2) | (h2 | h2))
    · refine h1 q ?_
      simp only [List.mem_append]
      have := hsq q h2
      tauto
    · refine h1 q ?_
      simp only [List.mem_append]
      have := hlq q h2
      tauto
    · refine h1 q ?_
      simp only [List.mem_append]
      tauto
    · refine h1 q ?_
      simp only [List.mem_append]
      tauto
    · subst h2
      have hp : p.classification = classifyStr th p.burst := by
        refine h1 p ?_
        simp only [List.mem_append]
        tauto
      exact hp

theorem eahGo_classOk {th : ℚ} (total : Nat) (maxTime : Int) :
    ∀ (fuel : Nat) (s : EahState), EahClassOk th s →
      EahClassOk th (eahGo total maxTime fuel s) := by
  intro fuel
  induction fuel with
  | zero => intro s h; exact h
  | succ n ih =>
    intro s h
    rw [eahGo]
    split
    · exact h
    · exact ih _ (eahStep_classOk h)

/-- EAH selection prefers the short queue: whenever the short queue is
non-empty, the selected process comes from it. -/
theorem eahSelect_short_first {s : EahState} {p : Process} {sq lq : List Process}
    (h : eahSelect s = some (p, sq, lq)) (hne : s.shortQ ≠ []) : p ∈ s.shortQ := by
  unfold eahSelect at h
  rcases hs : pySort leBurstArrPid s.shortQ with _ | ⟨p1, rest⟩
  · exfalso
    apply hne
    have := (pySort_perm leBurstArrPid s.shortQ).length_eq
    rw [hs] at this
    exact List.eq_nil_of_length_eq_zero (by simpa using this.symm)
  · rw [hs] at h
    simp only [Option.some.injEq, Prod.mk.injEq] at h
    obtain ⟨rfl, -, -⟩ := h
    exact mem_pySort.mp (by rw [hs]; exact List.mem_cons_self _ _)

/-- C8 (confirmed): the EAH threshold defaults to the arithmetic mean
burst when the caller supplies none; classification marks a process
`short` exactly when its burst is ≤ the threshold; every process in the
EAH result still carries the classification its (unchanged) burst
dictates under that threshold — classification happens once, before
simulation; and a dispatch never selects a long-classified process while
the short queue is non-empty. -/
theorem c8_eah_classification_dispatch (input : List Proc) (th? : Option ℚ) :
    (∀ ps : List Process,
      eahThreshold ps none = ((ps.map (·.burst)).sum : ℚ) / (ps.length : ℚ)) ∧
    (∀ (th : ℚ) (ps : List Process) (p : Process), p ∈ classify_tasks th ps →
      (p.classification = "short" ↔ (p.burst : ℚ) ≤ th)) ∧
    (∀ po ∈ (energy_aware_hybrid input th?).processes,
      po.classification =
        some (classifyStr (eahThreshold (input.map mkProcess) th?) po.burst)) ∧
    (∀ (s : EahState) (p : Process) (sq lq : List Process),
      eahSelect s = some (p, sq, lq) → s.shortQ ≠ [] → p ∈ s.shortQ) ∧
    (∀ (s : EahState) (p : Process) (sq lq : List Process),
      eahSelect s = some (p, sq, lq) → p.classification ≠ "short" →
        (∀ q ∈ s.shortQ, q.classification = "short") → s.shortQ = []) := by
  refine ⟨fun ps => rfl, ?_, ?_, ?_, ?_⟩
  · intro th ps p hp
    obtain ⟨p0, -, rfl⟩ := List.mem_map.mp hp
    show classifyStr th p0.burst = "short" ↔ (p0.burst : ℚ) ≤ th
    by_cases h : (p0.burst : ℚ) ≤ th
    · rw [classifyStr, if_pos h]
      exact iff_of_true rfl h
    · rw [classifyStr, if_neg h]
      exact iff_of_false (by decide) h
  · intro po hpo
    simp only [energy_aware_hybrid, List.mem_map] at hpo
    obtain ⟨q, hq, rfl⟩ := hpo
    have h0 : EahClassOk (eahThreshold (input.map mkProcess) th?)
        { pending := pySort leArr
            (classify_tasks (eahThreshold (input.map mkProcess) th?)
              (input.map mkProcess)) } := by
      intro r hr
      have hr1 : r ∈ pySort leArr
          (classify_tasks (eahThreshold (input.map mkProcess) th?)
            (input.map mkProcess)) := by
        simpa using hr
      have hr2 := mem_pySort.mp hr1
      obtain ⟨p0, -, rfl⟩ := List.mem_map.mp hr2
      rfl
    have hcl := eahGo_classOk _ _ _ _ h0 q (List.mem_append_right _ hq)
    show some q.classification = some (classifyStr _ q.burst)
    rw [hcl]
  · intro s p sq lq hsel hne
    exact eahSelect_short_first hsel hne
  · intro s p sq lq hsel hlong hall
    by_contra hne
    exact hlong (hall p (eahSelect_short_first hsel hne))

/-- Concrete instantiation of `c8_eah_classification_dispatch`: the mean
default on bursts `{2, 10}`, the classification of burst 2 under
threshold 3, and a dispatch taking the short-queue process. -/
theorem c8_witness :
    eahThreshold [mkProcess ⟨1, 0, 2, 0⟩, mkProcess ⟨2, 0, 10, 0⟩] none =
      (([mkProcess ⟨1, 0, 2, 0⟩, mkProcess ⟨2, 0, 10, 0⟩].map (·.burst)).sum : ℚ) /
        ([mkProcess ⟨1, 0, 2, 0⟩, mkProcess ⟨2, 0, 10, 0⟩].length : ℚ) ∧
    ((({ mkProcess ⟨1, 0, 2, 0⟩ with classification := "short" } : Process).classification =
        "short") ↔
      (({ mkProcess ⟨1, 0, 2, 0⟩ with classification := "short" } : Process).burst : ℚ) ≤ 3) ∧
    mkProcess ⟨1, 0, 2, 0⟩ ∈
      ({ pending := [], shortQ := [mkProcess ⟨1, 0, 2, 0⟩],
         longQ := [mkProcess ⟨2, 0, 10, 0⟩] } : EahState).shortQ :=
  ⟨(c8_eah_classification_dispatch [⟨1, 0, 2, 0⟩, ⟨2, 0, 10, 0⟩] (some 3)).1
      [mkProcess ⟨1, 0, 2, 0⟩, mkProcess ⟨2, 0, 10, 0⟩],
   (c8_eah_classification_dispatch [⟨1, 0, 2, 0⟩, ⟨2, 0, 10, 0⟩] (some 3)).2.1 3
      [mkProcess ⟨1, 0, 2, 0⟩] { mkProcess ⟨1, 0, 2, 0⟩ with classification := "short" }
      (by decide),
   (c8_eah_classification_dispatch [⟨1, 0, 2, 0⟩, ⟨2, 0, 10, 0⟩] (some 3)).2.2.2.1
      { pending := [], shortQ := [mkProcess ⟨1, 0, 2, 0⟩],
        longQ := [mkProcess ⟨2, 0, 10, 0⟩] }
      (mkProcess ⟨1, 0, 2, 0⟩) [] [mkProcess ⟨2, 0, 10, 0⟩] (by decide) (by decide)⟩

/-! ## Claim C10 -/

/-- `select_next_process` treats `'eah'` exactly as `'sjf'`: both reduce
to the first minimum of `(remaining, pid)`. -/
theorem select_next_process_eah_eq_sjf (q : List Process) (t : Int) :
    select_next_process q "eah" t = select_next_process q "sjf" t := by
  by_cases h : q = []
  · rw [select_next_process, select_next_process, if_pos h, if_pos h]
  · have hL : select_next_process q "eah" t = firstMinBy ltRemPid q := by
      rw [select_next_process, if_neg h, if_neg (by decide), if_neg (by decide),
        if_neg (by decide), if_neg (by decide), if_neg (by decide), if_pos rfl]
    have hR : select_next_process q "sjf" t = firstMinBy ltRemPid q := by
      rw [select_next_process, if_neg h, if_neg (by decide), if_pos (Or.inl rfl)]
    rw [hL, hR]

theorem dispatchCores_congr (alg1 alg2 : String) (quantum t : Int)
    (hsel : ∀ q : List Process, select_next_process q alg1 t = select_next_process q alg2 t)
    (h1 : ¬ alg1 = "round_robin") (h2 : ¬ alg2 = "round_robin") :
    ∀ (cores : List Core) (q : List Process) (n : Nat),
      dispatchCores alg1 quantum t cores q n = dispatchCores alg2 quantum t cores q n := by
  intro cores
  induction cores with
  | nil => intro q n; rfl
  | cons c cs ih =>
    intro q n
    simp only [dispatchCores]
    by_cases hc : c.current = none ∧ q ≠ []
    · rw [if_pos hc, if_pos hc, hsel q]
      rcases hs : select_next_process q alg2 t with _ | ⟨p, i⟩
      · dsimp only
        rw [ih]
      · dsimp only
        rw [if_neg h1, if_neg h2, ih]
    · rw [if_neg hc, if_neg hc]
      rw [ih]

theorem completeCores_congr (alg1 alg2 : String) (quantum t : Int)
    (h1 : ¬ alg1 = "round_robin") (h2 : ¬ alg2 = "round_robin") :
    ∀ (cores : List Core) (q done : List Process),
      completeCores alg1 quantum t cores q done =
        completeCores alg2 quantum t cores q done := by
  intro cores
  induction cores with
  | nil => intro q done; rfl
  | cons c cs ih =>
    intro q done
    simp only [completeCores]
    rcases hcur : c.current with _ | p
    · dsimp only
      rw [ih]
    · dsimp only
      by_cases ht : c.busy_until ≤ t
      · rw [if_pos ht, if_pos ht, if_neg h1, if_neg h2]
        by_cases hr : p.remaining - p.remaining ≤ 0
        · rw [if_pos hr, if_pos hr]
          rw [ih]
        · rw [if_neg hr, if_neg hr, if_neg h1, if_neg h2]
          rw [ih]
      · rw [if_neg ht, if_neg ht]
        rw [ih]

theorem mcGo_congr (alg1 alg2 : String) (quantum : Int)
    (hsel : ∀ (q : List Process) (t : Int),
      select_next_process q alg1 t = select_next_process q alg2 t)
    (h1 : ¬ alg1 = "round_robin") (h2 : ¬ alg2 = "round_robin") :
    ∀ (total : Nat) (maxTime : Int) (fuel : Nat) (s : MCState),
      mcGo alg1 quantum total maxTime fuel s = mcGo alg2 quantum total maxTime fuel s := by
  intro total maxTime fuel
  induction fuel with
  | zero => intro s; rfl
  | succ n ih =>
    intro s
    simp only [mcGo]
    by_cases hif : total ≤ s.completed.length ∨ maxTime ≤ s.time
    · rw [if_pos hif, if_pos hif]
    · rw [if_neg hif, if_neg hif]
      have hd := dispatchCores_congr alg1 alg2 quantum (mcAbsorb s).time
        (fun q => hsel q (mcAbsorb s).time) h1 h2
        (mcAbsorb s).cores (mcAbsorb s).ready (mcAbsorb s).cs
      rw [hd]
      rcases hne : nextEvent (dispatchCores alg2 quantum (mcAbsorb s).time
          (mcAbsorb s).cores (mcAbsorb s).ready (mcAbsorb s).cs).1 with _ | te
      · dsimp only
        rcases hp : (mcAbsorb s).pending with _ | ⟨p0, rest⟩
        · rfl
        · dsimp only
          rw [ih]
      · dsimp only
        rw [completeCores_congr alg1 alg2 quantum te h1 h2, ih]

/-- C10 (confirmed): the multi-core scheduler run with `'eah'` is the
run with `'sjf'` — selection is by minimal `(remaining, pid)` in both,
and the threshold parameter plays no role — so every output field
coincides except the algorithm label (and the speedup, which re-runs the
respective single-core engine). -/
theorem c10_multicore_eah_is_sjf (input : List Proc) (num_cores : Nat) (quantum : Int)
    (th1 th2 : Option ℚ) :
    (multicore_schedule input num_cores "eah" quantum th1).num_cores =
      (multicore_schedule input num_cores "sjf" quantum th2).num_cores ∧
    (multicore_schedule input num_cores "eah" quantum th1).processes =
      (multicore_schedule input num_cores "sjf" quantum th2).processes ∧
    (multicore_schedule input num_cores "eah" quantum th1).metrics =
      (multicore_schedule input num_cores "sjf" quantum th2).metrics ∧
    (multicore_schedule input num_cores "eah" quantum th1).gantt =
      (multicore_schedule input num_cores "sjf" quantum th2).gantt ∧
    (multicore_schedule input num_cores "eah" quantum th1).per_core_gantt =
      (multicore_schedule input num_cores "sjf" quantum th2).per_core_gantt ∧
    (multicore_schedule input num_cores "eah" quantum th1).context_switches =
      (multicore_schedule input num_cores "sjf" quantum th2).context_switches ∧
    (multicore_schedule input num_cores "eah" quantum th1).core_utilizations =
      (multicore_schedule input num_cores "sjf" quantum th2).core_utilizations ∧
    (multicore_schedule input num_cores "eah" quantum th1).avg_core_utilization =
      (multicore_schedule input num_cores "sjf" quantum th2).avg_core_utilization ∧
    (multicore_schedule input num_cores "eah" quantum th1).util_variance =
      (multicore_schedule input num_cores "sjf" quantum th2).util_variance := by
  have hmc := mcGo_congr "eah" "sjf" quantum select_next_process_eah_eq_sjf
    (by decide) (by decide)
  refine ⟨?_, ?_, ?_, ?_, ?_, ?_, ?_, ?_, ?_⟩ <;>
    simp only [multicore_schedule] <;> rw [hmc]

/-! ## Claim C6 -/

/-- Loop-entry invariant of the SRTF engine: ready processes have
arrived, pending ones have not been passed, pending is in arrival order
with globally distinct pids, and the incumbent (the process that ran in
the previous unit, if still ready) arrived strictly earlier than now and
has strictly smaller remaining time than every other ready process. -/
def SrtfInv (s : SimState) : Prop :=
  (∀ r ∈ s.ready, r.arrival ≤ s.time) ∧
  (∀ r ∈ s.pending, s.time ≤ r.arrival) ∧
  s.pending.Pairwise (fun a b => a.arrival ≤ b.arrival) ∧
  ((s.ready ++ s.pending).map (·.pid)).Nodup ∧
  (∀ q ∈ s.ready, s.last = some q.pid →
    q.arrival < s.time ∧ ∀ r ∈ s.ready, r.pid ≠ q.pid → q.remaining < r.remaining)

instance (s : SimState) : Decidable (SrtfInv s) := by
  unfold SrtfInv; exact inferInstance

/-- Loop-entry invariant of the preemptive-priority engine: as
`SrtfInv`, but the incumbent is strictly below every other ready process
in the full `(priority, arrival, pid)` selection key. -/
def PrioInv (s : SimState) : Prop :=
  (∀ r ∈ s.ready, r.arrival ≤ s.time) ∧
  (∀ r ∈ s.pending, s.time ≤ r.arrival) ∧
  s.pending.Pairwise (fun a b => a.arrival ≤ b.arrival) ∧
  ((s.ready ++ s.pending).map (·.pid)).Nodup ∧
  (∀ q ∈ s.ready, s.last = some q.pid →
    q.arrival < s.time ∧ ∀ r ∈ s.ready, r.pid ≠ q.pid →
      lex3 (q.priority, q.arrival, q.pid) (r.priority, r.arrival, r.pid))

instance (s : SimState) : Decidable (PrioInv s) := by
  unfold PrioInv; exact inferInstance

theorem absorb_flat (s : SimState) :
    (absorb s).ready ++ (absorb s).pending = s.ready ++ s.pending := by
  dsimp only [absorb]
  rw [List.append_assoc, List.takeWhile_append_dropWhile]

theorem absorb_ready_nodup {s : SimState}
    (h : ((s.ready ++ s.pending).map (·.pid)).Nodup) :
    ((absorb s).ready.map (·.pid)).Nodup := by
  have h2 : (((absorb s).ready ++ (absorb s).pending).map (·.pid)).Nodup := by
    rw [absorb_flat]; exact h
  rw [List.map_append] at h2
  exact h2.of_append_left

/-- Processes admitted by `absorb` under the pending lower bound arrive
exactly now. -/
theorem absorb_arr_eq {s : SimState} (hpend : ∀ r ∈ s.pending, s.time ≤ r.arrival) :
    ∀ r ∈ s.pending.takeWhile (fun p => decide (p.arrival ≤ s.time)),
      r.arrival = s.time := by
  intro r hr
  have h1 := List.mem_takeWhile_imp hr
  have h2 := hpend r ((List.takeWhile_sublist _).mem hr)
  simp only [decide_eq_true_eq] at h1
  omega

/-- On an arrival-sorted list, everything the `absorb` drop keeps
arrives strictly later than now. -/
theorem dropWhile_arr_gt {t : Int} :
    ∀ {l : List Process}, l.Pairwise (fun a b => a.arrival ≤ b.arrival) →
      ∀ r ∈ l.dropWhile (fun p => decide (p.arrival ≤ t)), t < r.arrival := by
  intro l
  induction l with
  | nil => intro _ r hr; simp at hr
  | cons a l ih =>
    intro hs r hr
    rcases List.pairwise_cons.mp hs with ⟨ha, hl⟩
    rw [List.dropWhile_cons] at hr
    by_cases h : a.arrival ≤ t
    · rw [if_pos (by simpa using h)] at hr
      exact ih hl r hr
    · rw [if_neg (by simpa using h)] at hr
      rcases List.mem_cons.mp hr with rfl | hr2
      · omega
      · have := ha r hr2
        omega

/-- Distinct pids across the ready/pending split. -/
theorem ready_pending_pid_ne {s : SimState}
    (h : ((s.ready ++ s.pending).map (·.pid)).Nodup)
    {q r : Process} (hq : q ∈ s.ready) (hr : r ∈ s.pending) : r.pid ≠ q.pid := by
  rw [List.map_append] at h
  have hdis := List.disjoint_of_nodup_append h
  intro he
  exact hdis (List.mem_map_of_mem _ hq) (he ▸ List.mem_map_of_mem _ hr)

theorem srtfInv_init (input : List Proc) (h0 : ∀ p ∈ input, 0 ≤ p.arrival)
    (hnd : (input.map (·.pid)).Nodup) :
    SrtfInv { pending := pySort leArr (input.map mkProcess) } := by
  refine ⟨?_, ?_, ?_, ?_, ?_⟩
  · intro r hr
    exact absurd hr (List.not_mem_nil r)
  · intro r hr
    have hr2 := mem_pySort.mp hr
    obtain ⟨p0, hp0, rfl⟩ := List.mem_map.mp hr2
    exact h0 p0 hp0
  · have hs := pySort_sorted leArr
      (by intro a b c h1 h2; simp only [leArr, decide_eq_true_eq] at *; omega)
      (by intro a b; simp only [leArr, Bool.or_eq_true, decide_eq_true_eq]; omega)
      (input.map mkProcess)
    exact hs.imp (fun h => by simpa [leArr] using h)
  · show ((pySort leArr (input.map mkProcess)).map (·.pid)).Nodup
    refine (((pySort_perm leArr (input.map mkProcess)).map (·.pid)).nodup_iff).mpr ?_
    rw [List.map_map]
    exact hnd
  · intro q hq
    exact absurd hq (List.not_mem_nil q)

theorem prioInv_init (input : List Proc) (h0 : ∀ p ∈ input, 0 ≤ p.arrival)
    (hnd : (input.map (·.pid)).Nodup) :
    PrioInv { pending := pySort leArr (input.map mkProcess) } := by
  obtain ⟨h1, h2, h3, h4, -⟩ := srtfInv_init input h0 hnd
  exact ⟨h1, h2, h3, h4, fun q hq => absurd hq (List.not_mem_nil q)⟩

theorem srtfInv_step {s : SimState} (hinv : SrtfInv s) : SrtfInv (srtfStep s) := by
  obtain ⟨hra, hpa, hps, hnd, hinc⟩ := hinv
  have htime : (absorb s).time = s.time := rfl
  have hra1 : ∀ r ∈ (absorb s).ready, r.arrival ≤ s.time := by
    intro r hr
    rcases List.mem_append.mp hr with h1 | h1
    · exact hra r h1
    · have := List.mem_takeWhile_imp h1
      simpa using this
  have hgt : ∀ r ∈ (absorb s).pending, s.time < r.arrival := fun r hr =>
    dropWhile_arr_gt hps r hr
  have hps1 : (absorb s).pending.Pairwise (fun a b => a.arrival ≤ b.arrival) :=
    List.Pairwise.sublist (List.dropWhile_sublist _) hps
  have hnd1 : (((absorb s).ready ++ (absorb s).pending).map (·.pid)).Nodup := by
    rw [absorb_flat]; exact hnd
  dsimp only [srtfStep]
  rcases hready : (absorb s).ready with _ | ⟨x, xs⟩
  · dsimp only
    rcases hpend : (absorb s).pending with _ | ⟨q0, rest'⟩
    · exact ⟨hra1, fun r hr => le_of_lt (hgt r hr), hps1, hnd1,
        fun q hq => absurd (hready ▸ hq) (List.not_mem_nil q)⟩
    · dsimp only
      refine ⟨?_, ?_, ?_, ?_, ?_⟩
      · intro r hr
        exact absurd hr (List.not_mem_nil r)
      · intro r hr
        dsimp only
        rcases List.mem_cons.mp hr with rfl | hr2
        · omega
        · have hsorted : List.Pairwise (fun a b => a.arrival ≤ b.arrival) (q0 :: rest') := by
            rw [← hpend]; exact hps1
          have := (List.pairwise_cons.mp hsorted).1 r hr2
          omega
      · dsimp only
        rw [← hpend]
        exact hps1
      · dsimp only
        rw [← hpend]
        have h0 : (([] : List Process) ++ (absorb s).pending) = (absorb s).pending := by simp
        rw [h0]
        have h1 : ((absorb s).pending.map (·.pid)).Nodup := by
          have := hnd1
          rw [List.map_append] at this
          exact this.of_append_right
        exact h1
      · intro q hq
        exact absurd hq (List.not_mem_nil q)
  · dsimp only
    have hra1x : ∀ r ∈ x :: xs, r.arrival ≤ s.time := by rw [← hready]; exact hra1
    rcases hsort : pySort leRemArrPid (x :: xs) with _ | ⟨p, rest⟩
    · exfalso
      have := (pySort_perm leRemArrPid (x :: xs)).length_eq
      rw [hsort] at this
      simp at this
    · dsimp only
      have hpmem : p ∈ x :: xs := pySort_head_mem hsort
      have hrest : ∀ r ∈ rest, r ∈ x :: xs := fun r hr =>
        mem_pySort.mp (by rw [hsort]; exact List.mem_cons_of_mem _ hr)
      have hle := pySort_head_le (fun z => (z.remaining, z.arrival, z.pid)) hsort
      have hn2 : (((p :: rest) ++ (absorb s).pending).map (·.pid)).Nodup := by
        have hperm : (p :: rest).Perm (x :: xs) := by
          rw [← hsort]; exact pySort_perm _ _
        have hperm2 := hperm.append_right (absorb s).pending
        refine ((hperm2.map (·.pid)).nodup_iff).mpr ?_
        rw [hready] at hnd1
        exact hnd1
      simp only [List.map_cons, List.map_append] at hn2
      have hheadnotin := (List.nodup_cons.mp hn2).1
      have htail := (List.nodup_cons.mp hn2).2
      by_cases hst : p.start_time = -1
      · rw [if_pos hst]
        dsimp only
        by_cases hrem : p.remaining - 1 = 0
        · rw [if_pos hrem]
          refine ⟨?_, ?_, hps1, ?_, ?_⟩
          · intro r hr
            dsimp only at hr
            have := hra1x r (hrest r hr)
            dsimp only
            omega
          · intro r hr
            dsimp only at hr ⊢
            have := hgt r hr
            omega
          · dsimp only
            simp only [List.map_append]
            exact htail
          · intro q hq hlast
            dsimp only at hq hlast
            exfalso
            simp only [Option.some.injEq] at hlast
            apply hheadnotin
            rw [hlast]
            exact List.mem_append.mpr (Or.inl (List.mem_map_of_mem _ hq))
        · rw [if_neg hrem]
          refine ⟨?_, ?_, hps1, ?_, ?_⟩
          · intro r hr
            dsimp only at hr ⊢
            rcases List.mem_cons.mp hr with rfl | hr2
            · dsimp only
              have := hra1x p hpmem
              omega
            · have := hra1x r (hrest r hr2)
              omega
          · intro r hr
            dsimp only at hr ⊢
            have := hgt r hr
            omega
          · dsimp only
            simp only [List.map_cons, List.map_append]
            exact hn2
          · intro q hq hlast
            dsimp only at hq hlast ⊢
            simp only [Option.some.injEq] at hlast
            rcases List.mem_cons.mp hq with rfl | hq2
            · refine ⟨?_, ?_⟩
              · dsimp only
                have := hra1x p hpmem
                omega
              · intro r hr hrp
                rcases List.mem_cons.mp hr with rfl | hr2
                · exact absurd rfl hrp
                · have hl := hle r (hrest r hr2)
                  unfold lex3 at hl
                  dsimp only at hl ⊢
                  omega
            · exfalso
              apply hheadnotin
              rw [hlast]
              exact List.mem_append.mpr (Or.inl (List.mem_map_of_mem _ hq2))
      · rw [if_neg hst]
        by_cases hrem : p.remaining - 1 = 0
        · rw [if_pos hrem]
          refine ⟨?_, ?_, hps1, ?_, ?_⟩
          · intro r hr
            dsimp only at hr
            have := hra1x r (hrest r hr)
            dsimp only
            omega
          · intro r hr
            dsimp only at hr ⊢
            have := hgt r hr
            omega
          · dsimp only
            simp only [List.map_append]
            exact htail
          · intro q hq hlast
            dsimp only at hq hlast
            exfalso
            simp only [Option.some.injEq] at hlast
            apply hheadnotin
            rw [hlast]
            exact List.mem_append.mpr (Or.inl (List.mem_map_of_mem _ hq))
        · rw [if_neg hrem]
          refine ⟨?_, ?_, hps1, ?_, ?_⟩
          · intro r hr
            dsimp only at hr ⊢
            rcases List.mem_cons.mp hr with rfl | hr2
            · dsimp only
              have := hra1x p hpmem
              omega
            · have := hra1x r (hrest r hr2)
              omega
          · intro r hr
            dsimp only at hr ⊢
            have := hgt r hr
            omega
          · dsimp only
            simp only [List.map_cons, List.map_append]
            exact hn2
          · intro q hq hlast
            dsimp only at hq hlast ⊢
            simp only [Option.some.injEq] at hlast
            rcases List.mem_cons.mp hq with rfl | hq2
            · refine ⟨?_, ?_⟩
              · dsimp only
                have := hra1x p hpmem
                omega
              · intro r hr hrp
                rcases List.mem_cons.mp hr with rfl | hr2
                · exact absurd rfl hrp
                · have hl := hle r (hrest r hr2)
                  unfold lex3 at hl
                  dsimp only at hl ⊢
                  omega
            · exfalso
              apply hheadnotin
              rw [hlast]
              exact List.mem_append.mpr (Or.inl (List.mem_map_of_mem _ hq2))

theorem prioInv_step {s : SimState} (hinv : PrioInv s) : PrioInv (prioPStep s) := by
  obtain ⟨hra, hpa, hps, hnd, hinc⟩ := hinv
  have htime : (absorb s).time = s.time := rfl
  have hra1 : ∀ r ∈ (absorb s).ready, r.arrival ≤ s.time := by
    intro r hr
    rcases List.mem_append.mp hr with h1 | h1
    · exact hra r h1
    · have := List.mem_takeWhile_imp h1
      simpa using this
  have hgt : ∀ r ∈ (absorb s).pending, s.time < r.arrival := fun r hr =>
    dropWhile_arr_gt hps r hr
  have hps1 : (absorb s).pending.Pairwise (fun a b => a.arrival ≤ b.arrival) :=
    List.Pairwise.sublist (List.dropWhile_sublist _) hps
  have hnd1 : (((absorb s).ready ++ (absorb s).pending).map (·.pid)).Nodup := by
    rw [absorb_flat]; exact hnd
  dsimp only [prioPStep]
  rcases hready : (absorb s).ready with _ | ⟨x, xs⟩
  · dsimp only
    rcases hpend : (absorb s).pending with _ | ⟨q0, rest'⟩
    · exact ⟨hra1, fun r hr => le_of_lt (hgt r hr), hps1, hnd1,
        fun q hq => absurd (hready ▸ hq) (List.not_mem_nil q)⟩
    · dsimp only
      refine ⟨?_, ?_, ?_, ?_, ?_⟩
      · intro r hr
        exact absurd hr (List.not_mem_nil r)
      · intro r hr
        dsimp only
        rcases List.mem_cons.mp hr with rfl | hr2
        · omega
        · have hsorted : List.Pairwise (fun a b => a.arrival ≤ b.arrival) (q0 :: rest') := by
            rw [← hpend]; exact hps1
          have := (List.pairwise_cons.mp hsorted).1 r hr2
          omega
      · dsimp only
        rw [← hpend]
        exact hps1
      · dsimp only
        rw [← hpend]
        have h0 : (([] : List Process) ++ (absorb s).pending) = (absorb s).pending := by simp
        rw [h0]
        have h1 : ((absorb s).pending.map (·.pid)).Nodup := by
          have := hnd1
          rw [List.map_append] at this
          exact this.of_append_right
        exact h1
      · intro q hq
        exact absurd hq (List.not_mem_nil q)
  · dsimp only
    have hra1x : ∀ r ∈ x :: xs, r.arrival ≤ s.time := by rw [← hready]; exact hra1
    rcases hsort : pySort lePrioArrPid (x :: xs) with _ | ⟨p, rest⟩
    · exfalso
      have := (pySort_perm lePrioArrPid (x :: xs)).length_eq
      rw [hsort] at this
      simp at this
    · dsimp only
      have hpmem : p ∈ x :: xs := pySort_head_mem hsort
      have hrest : ∀ r ∈ rest, r ∈ x :: xs := fun r hr =>
        mem_pySort.mp (by rw [hsort]; exact List.mem_cons_of_mem _ hr)
      have hle := pySort_head_le (fun z => (z.priority, z.arrival, z.pid)) hsort
      have hn2 : (((p :: rest) ++ (absorb s).pending).map (·.pid)).Nodup := by
        have hperm : (p :: rest).Perm (x :: xs) := by
          rw [← hsort]; exact pySort_perm _ _
        have hperm2 := hperm.append_right (absorb s).pending
        refine ((hperm2.map (·.pid)).nodup_iff).mpr ?_
        rw [hready] at hnd1
        exact hnd1
      simp only [List.map_cons, List.map_append] at hn2
      have hheadnotin := (List.nodup_cons.mp hn2).1
      have htail := (List.nodup_cons.mp hn2).2
      by_cases hst : p.start_time = -1
      · rw [if_pos hst]
        dsimp only
        by_cases hrem : p.remaining - 1 = 0
        · rw [if_pos hrem]
          refine ⟨?_, ?_, hps1, ?_, ?_⟩
          · intro r hr
            dsimp only at hr
            have := hra1x r (hrest r hr)
            dsimp only
            omega
          · intro r hr
            dsimp only at hr ⊢
            have := hgt r hr
            omega
          · dsimp only
            simp only [List.map_append]
            exact htail
          · intro q hq hlast
            dsimp only at hq hlast
            exfalso
            simp only [Option.some.injEq] at hlast
            apply hheadnotin
            rw [hlast]
            exact List.mem_append.mpr (Or.inl (List.mem_map_of_mem _ hq))
        · rw [if_neg hrem]
          refine ⟨?_, ?_, hps1, ?_, ?_⟩
          · intro r hr
            dsimp only at hr ⊢
            rcases List.mem_cons.mp hr with rfl | hr2
            · dsimp only
              have := hra1x p hpmem
              omega
            · have := hra1x r (hrest r hr2)
              omega
          · intro r hr
            dsimp only at hr ⊢
            have := hgt r hr
            omega
          · dsimp only
            simp only [List.map_cons, List.map_append]
            exact hn2
          · intro q hq hlast
            dsimp only at hq hlast ⊢
            simp only [Option.some.injEq] at hlast
            rcases List.mem_cons.mp hq with rfl | hq2
            · refine ⟨?_, ?_⟩
              · dsimp only
                have := hra1x p hpmem
                omega
              · intro r hr hrp
                rcases List.mem_cons.mp hr with rfl | hr2
                · exact absurd rfl hrp
                · exact hle r (hrest r hr2)
            · exfalso
              apply hheadnotin
              rw [hlast]
              exact List.mem_append.mpr (Or.inl (List.mem_map_of_mem _ hq2))
      · rw [if_neg hst]
        by_cases hrem : p.remaining - 1 = 0
        · rw [if_pos hrem]
          refine ⟨?_, ?_, hps1, ?_, ?_⟩
          · intro r hr
            dsimp only at hr
            have := hra1x r (hrest r hr)
            dsimp only
            omega
          · intro r hr
            dsimp only at hr ⊢
            have := hgt r hr
            omega
          · dsimp only
            simp only [List.map_append]
            exact htail
          · intro q hq hlast
            dsimp only at hq hlast
            exfalso
            simp only [Option.some.injEq] at hlast
            apply hheadnotin
            rw [hlast]
            exact List.mem_append.mpr (Or.inl (List.mem_map_of_mem _ hq))
        · rw [if_neg hrem]
          refine ⟨?_, ?_, hps1, ?_, ?_⟩
          · intro r hr
            dsimp only at hr ⊢
            rcases List.mem_cons.mp hr with rfl | hr2
            · dsimp only
              have := hra1x p hpmem
              omega
            · have := hra1x r (hrest r hr2)
              omega
          · intro r hr
            dsimp only at hr ⊢
            have := hgt r hr
            omega
          · dsimp only
            simp only [List.map_cons, List.map_append]
            exact hn2
          · intro q hq hlast
            dsimp only at hq hlast ⊢
            simp only [Option.some.injEq] at hlast
            rcases List.mem_cons.mp hq with rfl | hq2
            · refine ⟨?_, ?_⟩
              · dsimp only
                have := hra1x p hpmem
                omega
              · intro r hr hrp
                rcases List.mem_cons.mp hr with rfl | hr2
                · exact absurd rfl hrp
                · exact hle r (hrest r hr2)
            · exfalso
              apply hheadnotin
              rw [hlast]
              exact List.mem_append.mpr (Or.inl (List.mem_map_of_mem _ hq2))

/-- SRTF dispatch behaviour from the loop-entry invariant: the sorted
head runs next; a strictly shorter-remaining ready process displaces the
incumbent, while if nothing is strictly shorter the incumbent is
re-selected (remaining-time ties lose to its earlier arrival). -/
theorem srtf_dispatch {s : SimState} (hinv : SrtfInv s) {q p : Process}
    {rest : List Process} (hlast : s.last = some q.pid) (hq : q ∈ s.ready)
    (hsort : pySort leRemArrPid (absorb s).ready = p :: rest) :
    (srtfStep s).last = some p.pid ∧
    ((∃ r ∈ (absorb s).ready, r.remaining < q.remaining) → p.pid ≠ q.pid) ∧
    ((∀ r ∈ (absorb s).ready, q.remaining ≤ r.remaining) → p = q) := by
  obtain ⟨hra, hpa, hps, hnd, hinc⟩ := hinv
  obtain ⟨hqa, hsmi⟩ := hinc q hq hlast
  have hqready : q ∈ (absorb s).ready := List.mem_append_left _ hq
  have hndr : ((absorb s).ready.map (·.pid)).Nodup := absorb_ready_nodup hnd
  have hpmem : p ∈ (absorb s).ready := pySort_head_mem hsort
  refine ⟨?_, ?_, ?_⟩
  · dsimp only [srtfStep]
    rcases hready : (absorb s).ready with _ | ⟨x, xs⟩
    · rw [hready] at hsort
      simp [pySort, List.insertionSort] at hsort
    · dsimp only
      rw [hready] at hsort
      rw [hsort]
      dsimp only
      by_cases hst : p.start_time = -1
      · rw [if_pos hst]
        dsimp only
        split
        · rfl
        · rfl
      · rw [if_neg hst]
        split
        · rfl
        · rfl
  · rintro ⟨r, hr, hlt⟩ hpid
    have hpq : p = q := eq_of_pid_eq hndr hpmem hqready hpid
    subst hpq
    have hl := pySort_head_le (fun z => (z.remaining, z.arrival, z.pid)) hsort r hr
    unfold lex3 at hl
    dsimp only at hl
    omega
  · intro hall
    refine pySort_head_eq_of_strict _ hsort hqready ?_
    intro r hr hneq
    have hrq : r.pid ≠ q.pid := by
      intro he
      exact hneq (eq_of_pid_eq hndr hr hqready he)
    rcases List.mem_append.mp hr with h1 | h1
    · have hlt := hsmi r h1 hrq
      constructor
      · unfold lex3
        dsimp only
        omega
      · intro hk
        have e1 : q.remaining = r.remaining := congrArg (fun z => z.1) hk
        omega
    · have hre : r.arrival = s.time := absorb_arr_eq hpa r h1
      have hqr := hall r hr
      constructor
      · unfold lex3
        dsimp only
        omega
      · intro hk
        have e2 : q.arrival = r.arrival := congrArg (fun z => z.2.1) hk
        omega

/-- Preemptive-priority dispatch behaviour from the loop-entry
invariant: a strictly more urgent (smaller-priority) ready process
displaces the incumbent; otherwise — in particular on priority ties —
the incumbent is re-selected. -/
theorem prio_dispatch {s : SimState} (hinv : PrioInv s) {q p : Process}
    {rest : List Process} (hlast : s.last = some q.pid) (hq : q ∈ s.ready)
    (hsort : pySort lePrioArrPid (absorb s).ready = p :: rest) :
    (prioPStep s).last = some p.pid ∧
    ((∃ r ∈ (absorb s).ready, r.priority < q.priority) → p.pid ≠ q.pid) ∧
    ((∀ r ∈ (absorb s).ready, q.priority ≤ r.priority) → p = q) := by
  obtain ⟨hra, hpa, hps, hnd, hinc⟩ := hinv
  obtain ⟨hqa, hsmi⟩ := hinc q hq hlast
  have hqready : q ∈ (absorb s).ready := List.mem_append_left _ hq
  have hndr : ((absorb s).ready.map (·.pid)).Nodup := absorb_ready_nodup hnd
  have hpmem : p ∈ (absorb s).ready := pySort_head_mem hsort
  refine ⟨?_, ?_, ?_⟩
  · dsimp only [prioPStep]
    rcases hready : (absorb s).ready with _ | ⟨x, xs⟩
    · rw [hready] at hsort
      simp [pySort, List.insertionSort] at hsort
    · dsimp only
      rw [hready] at hsort
      rw [hsort]
      dsimp only
      by_cases hst : p.start_time = -1
      · rw [if_pos hst]
        dsimp only
        split
        · rfl
        · rfl
      · rw [if_neg hst]
        split
        · rfl
        · rfl
  · rintro ⟨r, hr, hlt⟩ hpid
    have hpq : p = q := eq_of_pid_eq hndr hpmem hqready hpid
    subst hpq
    have hl := pySort_head_le (fun z => (z.priority, z.arrival, z.pid)) hsort r hr
    unfold lex3 at hl
    dsimp only at hl
    omega
  · intro hall
    refine pySort_head_eq_of_strict _ hsort hqready ?_
    intro r hr hneq
    have hrq : r.pid ≠ q.pid := by
      intro he
      exact hneq (eq_of_pid_eq hndr hr hqready he)
    rcases List.mem_append.mp hr with h1 | h1
    · have hlt := hsmi r h1 hrq
      constructor
      · exact hlt
      · intro hk
        have e3 : q.pid = r.pid := congrArg (fun z => z.2.2) hk
        exact hrq e3.symm
    · have hre : r.arrival = s.time := absorb_arr_eq hpa r h1
      have hqr := hall r hr
      constructor
      · unfold lex3
        dsimp only
        omega
      · intro hk
        have e2 : q.arrival = r.arrival := congrArg (fun z => z.2.1) hk
        omega

/-- C6 (confirmed): from a valid input the engines start in the
loop-entry invariant, every SRTF / preemptive-priority step preserves
it, and at each one-unit boundary the dispatched process is the sorted
head, which (a) differs from the incumbent whenever some ready process
has strictly smaller remaining time (strictly more urgent priority), and
(b) is the incumbent itself whenever no ready process beats it strictly
— selection-key ties leave the incumbent running, because a tying
process arrived strictly later. -/
theorem c6_preemption_and_ties (input : List Proc) (s : SimState)
    (h0 : ∀ p ∈ input, 0 ≤ p.arrival) (hnd : (input.map (·.pid)).Nodup) :
    SrtfInv { pending := pySort leArr (input.map mkProcess) } ∧
    PrioInv { pending := pySort leArr (input.map mkProcess) } ∧
    (SrtfInv s → SrtfInv (srtfStep s)) ∧
    (PrioInv s → PrioInv (prioPStep s)) ∧
    (∀ (q p : Process) (rest : List Process), SrtfInv s → s.last = some q.pid →
      q ∈ s.ready → pySort leRemArrPid (absorb s).ready = p :: rest →
      (srtfStep s).last = some p.pid ∧
      ((∃ r ∈ (absorb s).ready, r.remaining < q.remaining) → p.pid ≠ q.pid) ∧
      ((∀ r ∈ (absorb s).ready, q.remaining ≤ r.remaining) → p = q)) ∧
    (∀ (q p : Process) (rest : List Process), PrioInv s → s.last = some q.pid →
      q ∈ s.ready → pySort lePrioArrPid (absorb s).ready = p :: rest →
      (prioPStep s).last = some p.pid ∧
      ((∃ r ∈ (absorb s).ready, r.priority < q.priority) → p.pid ≠ q.pid) ∧
      ((∀ r ∈ (absorb s).ready, q.priority ≤ r.priority) → p = q)) :=
  ⟨srtfInv_init input h0 hnd, prioInv_init input h0 hnd,
   fun h => srtfInv_step h, fun h => prioInv_step h,
   fun q p rest hinv hlast hq hsort => srtf_dispatch hinv hlast hq hsort,
   fun q p rest hinv hlast hq hsort => prio_dispatch hinv hlast hq hsort⟩

/-- The SRTF preemption scenario: incumbent pid 1 at time 2. -/
def c6qS : Process :=
  { pid := 1, arrival := 0, burst := 5, remaining := 3, priority := 0, start_time := 0 }

/-- The newly arriving shorter job (remaining 1, arrival 2). -/
def c6rS : Process :=
  { pid := 2, arrival := 2, burst := 1, remaining := 1, priority := 0 }

/-- SRTF state: pid 1 ran last, pid 2 arrives now. -/
def c6sS : SimState :=
  { time := 2, ready := [c6qS], pending := [c6rS], last := some 1 }

/-- The priority-tie scenario: incumbent pid 1, priority 1. -/
def c6qP : Process :=
  { pid := 1, arrival := 0, burst := 5, remaining := 3, priority := 1, start_time := 0 }

/-- An equal-priority newcomer with a smaller pid, arriving now. -/
def c6rP : Process :=
  { pid := 0, arrival := 2, burst := 4, remaining := 4, priority := 1 }

/-- Priority state: pid 1 ran last, pid 0 (same priority) arrives now. -/
def c6sP : SimState :=
  { time := 2, ready := [c6qP], pending := [c6rP], last := some 1 }

/-- Concrete instantiation of `c6_preemption_and_ties`: at time 2 the
incumbent pid 1 (remaining 3) is displaced by the newly arrived pid 2
(remaining 1) under SRTF, and under preemptive priority the incumbent is
re-selected against an equal-priority newcomer that even has a smaller
pid (the tie never reaches the pid component — arrival decides). -/
theorem c6_witness :
    (srtfStep c6sS).last = some c6rS.pid ∧
    c6rS.pid ≠ c6qS.pid ∧
    (prioPStep c6sP).last = some c6qP.pid :=
  ⟨((c6_preemption_and_ties [⟨1, 0, 5, 0⟩] c6sS (by decide) (by decide)).2.2.2.2.1
      c6qS c6rS [c6qS] (by decide) (by decide) (by decide) (by decide)).1,
   ((c6_preemption_and_ties [⟨1, 0, 5, 0⟩] c6sS (by decide) (by decide)).2.2.2.2.1
      c6qS c6rS [c6qS] (by decide) (by decide) (by decide) (by decide)).2.1 (by decide),
   ((c6_preemption_and_ties [⟨1, 0, 5, 0⟩] c6sP (by decide) (by decide)).2.2.2.2.2
      c6qP c6qP [c6rP] (by decide) (by decide) (by decide) (by decide)).1⟩

end EnergiX

